import Mathlib

/-!
Verification of the CapMetro trip-visualization engine (src/src/App.vue).

Shallow embedding conventions:
* JavaScript numbers that can become NaN are modelled as `JQ := Option ℚ`
  (`none` = NaN).  All comparisons against NaN are false, matching JS.
  `0 / 0` is NaN (`none`); a nonzero numerator over zero (JS Infinity) is
  unreachable at the single division site of this code (the boundary check
  forces a zero numerator whenever the span is zero), and is mapped to
  `none` as well.
* Times are epoch seconds; `parseInt` of the integral feed values is the
  identity, so times are carried as `ℚ` directly.  `parseInt(undefined)`
  is NaN, modelled as `none`.
* Geographic distance (turf's haversine) is an abstract parameter
  `d : Pt → Pt → ℚ` of every geometric function; theorems assume only
  what they need of it (e.g. nonnegativity), and witnesses instantiate it
  with the taxicab distance.
* turf calls that throw (`point(undefined)`, `lineString` with fewer than
  two positions, interpolation along a non-line geometry) are modelled as
  `none`; the surrounding `try/catch` of the source maps them to `null`.
-/

namespace CapViz

/-- JS number that may be NaN: `none` is NaN. -/
abbrev JQ := Option ℚ

def jsub : JQ → JQ → JQ
  | some a, some b => some (a - b)
  | _, _ => none

def jmul : JQ → JQ → JQ
  | some a, some b => some (a * b)
  | _, _ => none

/-- JS division as used at the single division site of the resolver:
`0/0` is NaN (`none`); nonzero over zero (Infinity) is unreachable there
and also mapped to `none`. -/
def jdiv : JQ → JQ → JQ
  | some a, some b => if b = 0 then none else some (a / b)
  | _, _ => none

/-- JS `<`: false whenever an operand is NaN. -/
def jlt : JQ → JQ → Bool
  | some a, some b => decide (a < b)
  | _, _ => false

/-- JS `>`: false whenever an operand is NaN. -/
def jgt : JQ → JQ → Bool
  | some a, some b => decide (b < a)
  | _, _ => false

/-- JS `>=`: false whenever an operand is NaN. -/
def jge : JQ → JQ → Bool
  | some a, some b => decide (b ≤ a)
  | _, _ => false

/-- One stop-time update; the fields model `stu.arrival?.time` and
`stu.departure?.time` (absent object or absent time ⇒ `none`). -/
structure StopTimeUpdate where
  arrival : Option ℚ
  departure : Option ℚ
deriving DecidableEq

/-- JS truthiness filter on a time value: `0` is falsy. -/
def truthy : Option ℚ → Option ℚ
  | some t => if t = 0 then none else some t
  | none => none

/-- `st.arrival?.time || st.departure?.time` (no default). -/
def evTime (st : StopTimeUpdate) : Option ℚ :=
  match truthy st.arrival with
  | some t => some t
  | none => truthy st.departure

/-- `parseInt(st.arrival?.time || st.departure?.time || 0)` — the time used
by the bracketing scan; an event with neither timestamp scans as `0`. -/
def scanTime (st : StopTimeUpdate) : ℚ :=
  (evTime st).getD 0

/-- The bracketing scan of `calculatePositionOnRoute` (App.vue 349–357):
walk the events in order, remembering the last event with
`time ≤ clock` (`prevStop`) and breaking at the first with
`time > clock` (`nextStop`). -/
def scanStops (clock : ℚ) : Option ℚ → List StopTimeUpdate → Option ℚ × Option ℚ
  | prev, [] => (prev, none)
  | prev, st :: rest =>
    if scanTime st ≤ clock then scanStops clock (some (scanTime st)) rest
    else (prev, some (scanTime st))

/-- Everything `calculatePositionOnRoute` checks before its division
(App.vue 343–365): the length guard, the bracketing scan, and the window
boundary check.  Returns the parsed `(startTime, endTime)` pair
(`parseInt` of a missing time is NaN = `none`) exactly when control
reaches the `totalProgress` division. -/
def resolveGate (clock : ℚ) (sts : List StopTimeUpdate) : Option (JQ × JQ) :=
  if sts.length < 2 then none
  else
    match scanStops clock none sts with
    | (some _, some _) =>
      match sts.head?, sts.getLast? with
      | some h, some l =>
        if jlt (some clock) (evTime h) || jgt (some clock) (evTime l) then none
        else some (evTime h, evTime l)
      | _, _ => none
    | _ => none

/-- Longitude/latitude pair. -/
abbrev Pt := ℚ × ℚ

/-- Geometry of a cached feature: a LineString, a MultiLineString, or any
other geometry type (point, polygon, …). -/
inductive Geom where
  | line (coords : List Pt)
  | multi (parts : List (List Pt))
  | other
deriving DecidableEq

/-- Cumulative length of a polyline under the distance `d`
(turf `length`, which sums the segment distances). -/
def lineLen (d : Pt → Pt → ℚ) : List Pt → ℚ
  | p :: q :: rest => d p q + lineLen d (q :: rest)
  | _ => 0

/-- Planar analogue of turf `destination` along the segment direction:
the point `overshot/len` of the way past `p` coming from `pp`
(`overshot ≤ 0` moves back toward `pp`). -/
def lerpPast (pp p : Pt) (r : ℚ) : Pt :=
  (p.1 + r * (p.1 - pp.1), p.2 + r * (p.2 - pp.2))

/-- The overshoot branch of turf `along` at vertex `p`: zero overshoot
returns the vertex itself, otherwise the point is interpolated back
toward the previous vertex `pp`.  A missing previous vertex is turf's
`point(coords[-1])` throw; a zero-length previous segment cannot reach
this branch from `along`'s entry point and is mapped to failure. -/
def overshotAt (d : Pt → Pt → ℚ) (prevPt : Option Pt) (p : Pt) (travelled dq : ℚ) :
    Option Pt :=
  if dq - travelled = 0 then some p
  else
    match prevPt with
    | none => none
    | some pp => if d pp p = 0 then none else some (lerpPast pp p ((dq - travelled) / d pp p))

/-- Loop body of turf `along` (with the NaN-distance behaviour of the JS
comparisons: every guard is false, the walk falls off the end of the
coordinate list and `point(coords[i+1])` throws = `none`). -/
def alongGo (d : Pt → Pt → ℚ) (dist : JQ) : Option Pt → ℚ → List Pt → Option Pt
  | _, _, [] => none
  | prevPt, travelled, [p] =>
    if jge dist (some travelled) then some p
    else if jge (some travelled) dist then
      match dist with
      | some dq => overshotAt d prevPt p travelled dq
      | none => none
    else none
  | prevPt, travelled, p :: q :: rest =>
    if jge (some travelled) dist then
      match dist with
      | some dq => overshotAt d prevPt p travelled dq
      | none => none
    else alongGo d dist (some p) (travelled + d p q) (q :: rest)

/-- turf `along`. -/
def along (d : Pt → Pt → ℚ) (coords : List Pt) (dist : JQ) : Option Pt :=
  alongGo d dist none 0 coords

/-- Body of `getPointAtFraction` on a plain coordinate list:
`turfAlong(line, turfLength(line) * fraction)`. -/
def gpafLine (d : Pt → Pt → ℚ) (coords : List Pt) (fraction : JQ) : Option Pt :=
  along d coords (jmul (some (lineLen d coords)) fraction)

/-- `getPointAtFraction` (App.vue 373–387).  A MultiLineString is cut down
to its first part (`lineString(coords[0])` throws when that part has
fewer than two positions, and `coords[0]` of an empty MultiLineString is
undefined); interpolation along a non-line geometry throws inside turf.
All throws are caught by the function's `try/catch` and become `null`. -/
def getPointAtFraction (d : Pt → Pt → ℚ) : Geom → JQ → Option Pt
  | .line c, fr => gpafLine d c fr
  | .multi [], _ => none
  | .multi (c :: _), fr => if c.length < 2 then none else gpafLine d c fr
  | .other, _ => none

/-- A raw property value of a GeoJSON feature: string or number. -/
inductive JsVal where
  | str (s : String)
  | num (n : Int)
deriving DecidableEq

/-- JS `String(v)`. -/
def JsVal.toStr : JsVal → String
  | .str s => s
  | .num n => toString n

/-- The property fields scanned for a route identifier. -/
structure FProps where
  ROUTE_ID : Option JsVal
  route_id : Option JsVal
  RouteId : Option JsVal
  ROUTE : Option JsVal
  route : Option JsVal
  LINE_ID : Option JsVal
deriving DecidableEq

/-- A GeoJSON feature as held by the route cache. -/
structure Feature where
  props : Option FProps
  geom : Geom
deriving DecidableEq

/-- The `possibleIds` candidate list of `rebuildRouteCache`
(App.vue 224–229), in source order. -/
def possibleIds (p : FProps) : List (Option JsVal) :=
  [p.ROUTE_ID, p.route_id, p.RouteId, p.ROUTE, p.route, p.LINE_ID,
   p.ROUTE_ID.map (fun v => JsVal.str v.toStr), p.route_id.map (fun v => JsVal.str v.toStr)]

/-- `Map.get`. -/
def mapGet {K V : Type} [DecidableEq K] : List (K × V) → K → Option V
  | [], _ => none
  | (k', v) :: rest, k => if k' = k then some v else mapGet rest k

/-- `Map.set`: replace the existing entry in place, else append
(JS `Map` insertion-order semantics). -/
def mapSet {K V : Type} [DecidableEq K] : List (K × V) → K → V → List (K × V)
  | [], k, v => [(k, v)]
  | (k', v') :: rest, k, v =>
    if k' = k then (k, v) :: rest else (k', v') :: mapSet rest k v

abbrev Cache := List (String × Feature)

/-- Register one feature under each of its non-null candidate
identifiers, normalized with `String(...)` (App.vue 220–243). -/
def registerFeature (m : Cache) (f : Feature) : Cache :=
  match f.props with
  | none => m
  | some p =>
    (possibleIds p).foldl
      (fun m idOpt =>
        match idOpt with
        | some v => mapSet m v.toStr f
        | none => m) m

/-- `rebuildRouteCache` (App.vue 207–245), over the stream of features
unpacked from the shape layers' GeoJSON. -/
def rebuildRouteCache (feats : List Feature) : Cache :=
  feats.foldl registerFeature []

/-- The normalized candidate keys a feature is registered under. -/
def featCands (f : Feature) : List String :=
  match f.props with
  | none => []
  | some p => (possibleIds p).filterMap (fun o => o.map JsVal.toStr)

/-- `ent.tripUpdate`. -/
structure TripUpdate where
  tripId : String
  routeId : JsVal
  stopTimeUpdate : Option (List StopTimeUpdate)
deriving DecidableEq

/-- `calculatePositionOnRoute` (App.vue 340–370): guard/scan/boundary via
`resolveGate`, then `totalProgress = (clock - startTime)/(endTime - startTime)`
and the point lookup at that fraction of the route. -/
def calculatePositionOnRoute (d : Pt → Pt → ℚ) (tu : TripUpdate) (lf : Feature)
    (clock : ℚ) : Option Pt :=
  match tu.stopTimeUpdate with
  | none => none
  | some sts =>
    match resolveGate clock sts with
    | none => none
    | some (s, e) =>
      getPointAtFraction d lf.geom (jdiv (jsub (some clock) s) (jsub e s))

/-- One feed entity. -/
structure Entity where
  tripUpdate : Option TripUpdate
deriving DecidableEq

/-- `getLineStringFeature` (App.vue 330–338) applied to a cache value.
Cache values are always single features (the cache builder unpacks
FeatureCollections), so the `Feature` branch returns the input
unchanged — with no check of its geometry type. -/
def getLineStringFeature (f : Feature) : Option Feature :=
  some f

/-- One rendered polyline: its render-surface identity and its point
sequence. -/
structure Layer where
  lid : Nat
  latLngs : List Pt
deriving DecidableEq

/-- The reconciler's mutable state: the fresh-identity counter, the
`activeVehicleLayers` map, and the identities of the layers currently on
the vehicle layer group. -/
structure VState where
  nextId : Nat
  tracked : List (String × Layer)
  surface : List Nat
deriving DecidableEq

/-- Per-entity resolution of `updateVehiclePositions` (App.vue 259–281):
route lookup, line extraction, position computation. -/
def resolveEntity (d : Pt → Pt → ℚ) (cache : Cache) (clock : ℚ) (e : Entity) :
    Option (String × Pt × Feature) :=
  match e.tripUpdate with
  | none => none
  | some tu =>
    match mapGet cache tu.routeId.toStr with
    | none => none
    | some f =>
      match getLineStringFeature f with
      | none => none
      | some lf =>
        match calculatePositionOnRoute d tu lf clock with
        | none => none
        | some pos => some (tu.tripId, pos, lf)

/-- One iteration of the entity loop (App.vue 259–319).  `sliceFn`
abstracts the `point`/`lineSlice`/coordinate-flip block, which can throw;
the `try/catch` turns a throw (`none`) into skipping the layer update.
The trip is marked visible before the slice is attempted. -/
def stepEntity (d : Pt → Pt → ℚ) (cache : Cache)
    (sliceFn : Feature → Pt → Option (List Pt)) (clock : ℚ)
    (acc : VState × List String) (e : Entity) : VState × List String :=
  match resolveEntity d cache clock e with
  | none => acc
  | some (t, pos, lf) =>
    let vis := acc.2.insert t
    match sliceFn lf pos with
    | none => (acc.1, vis)
    | some ll =>
      match mapGet acc.1.tracked t with
      | some L => ({ acc.1 with tracked := mapSet acc.1.tracked t ⟨L.lid, ll⟩ }, vis)
      | none =>
        ({ nextId := acc.1.nextId + 1,
           tracked := mapSet acc.1.tracked t ⟨acc.1.nextId, ll⟩,
           surface := acc.1.surface ++ [acc.1.nextId] }, vis)

/-- The cleanup sweep (App.vue 321–327): every tracked trip not marked
visible this frame has its layer removed from the surface and its map
entry deleted. -/
def gcLayers (vis : List String) (s : VState) : VState :=
  { nextId := s.nextId,
    tracked := s.tracked.filter (fun e => e.1 ∈ vis),
    surface := s.surface.filter
      (fun l => l ∉ (s.tracked.filter (fun e => e.1 ∉ vis)).map (fun e => e.2.lid)) }

/-- `updateVehiclePositions` (App.vue 252–328) for a loaded feed: the
entity loop followed by the cleanup sweep. -/
def updateVehiclePositions (d : Pt → Pt → ℚ) (cache : Cache)
    (sliceFn : Feature → Pt → Option (List Pt)) (clock : ℚ)
    (ents : List Entity) (s : VState) : VState :=
  let r := ents.foldl (stepEntity d cache sliceFn clock) (s, [])
  gcLayers r.2 r.1

/-- The visible-trip set of a frame, which depends only on the inputs,
not on the layer state. -/
def visStep (d : Pt → Pt → ℚ) (cache : Cache) (clock : ℚ)
    (vis : List String) (e : Entity) : List String :=
  match resolveEntity d cache clock e with
  | none => vis
  | some (t, _, _) => vis.insert t

def visF (d : Pt → Pt → ℚ) (cache : Cache) (clock : ℚ)
    (ents : List Entity) (vis : List String) : List String :=
  ents.foldl (visStep d cache clock) vis

/-- The trip ids named by a frame's input entities. -/
def entIds (ents : List Entity) : List String :=
  ents.filterMap (fun e => e.tripUpdate.map (fun tu => tu.tripId))

/-- Playback state (App.vue 19–23). -/
structure PB where
  currentTime : ℚ
  minTime : ℚ
  maxTime : ℚ
  isPlaying : Bool
  playbackSpeed : ℚ
deriving DecidableEq

/-- One `animate` tick (App.vue 107–122) with elapsed wall time `dt`
seconds; the base rate is the fixed 30 data-seconds per wall-second. -/
def animate (dt : ℚ) (s : PB) : PB :=
  if s.isPlaying ∧ s.minTime < s.maxTime then
    { s with currentTime :=
        if s.maxTime < s.currentTime + dt * 30 * s.playbackSpeed then s.minTime
        else s.currentTime + dt * 30 * s.playbackSpeed }
  else s

/-- Modelled from the spec: the repository has no `setTime` function —
manual scrubbing is the native HTML range input bound to `currentTime`
(App.vue line 408), whose value sanitization algorithm clamps assigned
values into `[min, max]`.  The play/pause flag is not consulted. -/
def setTime (s : PB) (t : ℚ) : PB :=
  { s with currentTime :=
      if s.maxTime < t then s.maxTime
      else if t < s.minTime then s.minTime
      else t }

/-- Absolute value written with an executable conditional. -/
def qabs (x : ℚ) : ℚ :=
  if x < 0 then -x else x

/-- Taxicab distance: the concrete instantiation of the abstract
distance used by witnesses. -/
def taxi (p q : Pt) : ℚ :=
  qabs (p.1 - q.1) + qabs (p.2 - q.2)

/-- Executable sanity condition on a geometry under which interpolation
can succeed: a nonempty LineString, or a MultiLineString whose first part
has at least two positions. -/
def geomOk : Geom → Bool
  | .line c => !c.isEmpty
  | .multi [] => false
  | .multi (c :: _) => decide (2 ≤ c.length)
  | .other => false

/-- Well-formedness of the reconciler state: unique trip keys, unique
layer identities, a duplicate-free surface carrying exactly the tracked
layers, and all identities below the freshness counter. -/
def WF (s : VState) : Prop :=
  (s.tracked.map Prod.fst).Nodup ∧
  (s.tracked.map (fun e => e.2.lid)).Nodup ∧
  s.surface.Nodup ∧
  (∀ l ∈ s.surface, ∃ e ∈ s.tracked, e.2.lid = l) ∧
  (∀ e ∈ s.tracked, e.2.lid ∈ s.surface) ∧
  (∀ e ∈ s.tracked, e.2.lid < s.nextId)

instance (s : VState) : Decidable (WF s) := by
  unfold WF; infer_instance

/-- A two-event schedule: arrivals at 1000 and 1100. -/
def tuA : TripUpdate :=
  ⟨"t1", .num 7, some [⟨some 1000, none⟩, ⟨some 1100, none⟩]⟩

/-- A straight one-segment route from (0,0) to (0,1). -/
def lfA : Feature := ⟨none, .line [(0, 0), (0, 1)]⟩

/-! ### Helper lemmas -/

theorem evTime_eq_scanTime {st : StopTimeUpdate} (h : (evTime st).isSome) :
    evTime st = some (scanTime st) := by
  cases hev : evTime st with
  | none => rw [hev] at h; simp at h
  | some t => simp [scanTime, hev]

theorem mapGet_cons_self {K V : Type} [DecidableEq K] (k : K) (v : V)
    (rest : List (K × V)) : mapGet ((k, v) :: rest) k = some v := by
  simp [mapGet]

theorem mapGet_cons_ne {K V : Type} [DecidableEq K] {k0 k : K} (v : V)
    (rest : List (K × V)) (h : k0 ≠ k) :
    mapGet ((k0, v) :: rest) k = mapGet rest k := by
  simp [mapGet, h]

theorem mapSet_cons_self {K V : Type} [DecidableEq K] (k : K) (v0 v : V)
    (rest : List (K × V)) : mapSet ((k, v0) :: rest) k v = (k, v) :: rest := by
  simp [mapSet]

theorem mapSet_cons_ne {K V : Type} [DecidableEq K] {k0 k : K} (v0 v : V)
    (rest : List (K × V)) (h : k0 ≠ k) :
    mapSet ((k0, v0) :: rest) k v = (k0, v0) :: mapSet rest k v := by
  simp [mapSet, h]

theorem mapGet_mapSet {K V : Type} [DecidableEq K] (m : List (K × V)) (k k' : K) (v : V) :
    mapGet (mapSet m k v) k' = if k = k' then some v else mapGet m k' := by
  induction m with
  | nil =>
    by_cases h : k = k' <;> simp [mapSet, mapGet, h]
  | cons e rest ih =>
    obtain ⟨k0, v0⟩ := e
    by_cases h : k0 = k
    · subst h
      rw [mapSet_cons_self]
      by_cases h' : k0 = k'
      · subst h'; simp [mapGet_cons_self]
      · rw [mapGet_cons_ne _ _ h', mapGet_cons_ne _ _ h', if_neg h']
    · rw [mapSet_cons_ne _ _ _ h]
      by_cases h' : k0 = k'
      · subst h'
        have h2 : ¬ k = k0 := fun hh => h hh.symm
        rw [mapGet_cons_self, mapGet_cons_self, if_neg h2]
      · rw [mapGet_cons_ne _ _ h', mapGet_cons_ne _ _ h', ih]

theorem mapSet_self {K V : Type} [DecidableEq K] {m : List (K × V)} {k : K} {v : V}
    (h : mapGet m k = some v) : mapSet m k v = m := by
  induction m with
  | nil => simp [mapGet] at h
  | cons e rest ih =>
    obtain ⟨k0, v0⟩ := e
    by_cases hk : k0 = k
    · subst hk
      rw [mapGet_cons_self] at h
      rw [mapSet_cons_self]
      simp_all
    · rw [mapGet_cons_ne _ _ hk] at h
      rw [mapSet_cons_ne _ _ _ hk, ih h]

theorem mapGet_mem {K V : Type} [DecidableEq K] {m : List (K × V)} {k : K} {v : V}
    (h : mapGet m k = some v) : (k, v) ∈ m := by
  induction m with
  | nil => simp [mapGet] at h
  | cons e rest ih =>
    obtain ⟨k0, v0⟩ := e
    by_cases hk : k0 = k
    · subst hk
      rw [mapGet_cons_self] at h
      cases h
      simp
    · rw [mapGet_cons_ne _ _ hk] at h
      exact List.mem_cons_of_mem _ (ih h)

theorem mapGet_none_iff {K V : Type} [DecidableEq K] {m : List (K × V)} {k : K} :
    mapGet m k = none ↔ k ∉ m.map Prod.fst := by
  induction m with
  | nil => simp [mapGet]
  | cons e rest ih =>
    obtain ⟨k0, v0⟩ := e
    by_cases hk : k0 = k
    · subst hk
      rw [mapGet_cons_self]
      simp
    · rw [mapGet_cons_ne _ _ hk]
      simp only [List.map_cons, List.mem_cons, ih]
      constructor
      · rintro hnot (h | h)
        · exact hk h.symm
        · exact hnot h
      · intro hnot h
        exact hnot (Or.inr h)

theorem mapSet_map_of_get_some {K V β : Type} [DecidableEq K] {m : List (K × V)} {k : K}
    {v : V} (w : V) (f : K × V → β) (h : mapGet m k = some v)
    (hf : f (k, w) = f (k, v)) : (mapSet m k w).map f = m.map f := by
  induction m with
  | nil => simp [mapGet] at h
  | cons e rest ih =>
    obtain ⟨k0, v0⟩ := e
    by_cases hk : k0 = k
    · subst hk
      rw [mapGet_cons_self] at h
      cases h
      rw [mapSet_cons_self]
      simp [hf]
    · rw [mapGet_cons_ne _ _ hk] at h
      rw [mapSet_cons_ne _ _ _ hk]
      simp [ih h]

theorem mapSet_map_of_get_none {K V β : Type} [DecidableEq K] {m : List (K × V)} {k : K}
    (w : V) (f : K × V → β) (h : mapGet m k = none) :
    (mapSet m k w).map f = m.map f ++ [f (k, w)] := by
  induction m with
  | nil => simp [mapSet]
  | cons e rest ih =>
    obtain ⟨k0, v0⟩ := e
    by_cases hk : k0 = k
    · subst hk
      rw [mapGet_cons_self] at h
      cases h
    · rw [mapGet_cons_ne _ _ hk] at h
      rw [mapSet_cons_ne _ _ _ hk]
      simp [ih h]

theorem mem_mapSet {K V : Type} [DecidableEq K] {m : List (K × V)} {k : K} {w : V}
    {e : K × V} (h : e ∈ mapSet m k w) : e = (k, w) ∨ e ∈ m := by
  induction m with
  | nil => simpa [mapSet] using h
  | cons e0 rest ih =>
    obtain ⟨k0, v0⟩ := e0
    by_cases hk : k0 = k
    · subst hk
      rw [mapSet_cons_self] at h
      rcases List.mem_cons.1 h with h | h
      · exact Or.inl h
      · exact Or.inr (List.mem_cons_of_mem _ h)
    · rw [mapSet_cons_ne _ _ _ hk] at h
      rcases List.mem_cons.1 h with h | h
      · exact Or.inr (by simp [h])
      · rcases ih h with h' | h'
        · exact Or.inl h'
        · exact Or.inr (List.mem_cons_of_mem _ h')

theorem self_mem_mapSet {K V : Type} [DecidableEq K] (m : List (K × V)) (k : K) (w : V) :
    (k, w) ∈ mapSet m k w := by
  induction m with
  | nil => simp [mapSet]
  | cons e0 rest ih =>
    obtain ⟨k0, v0⟩ := e0
    by_cases hk : k0 = k
    · subst hk
      rw [mapSet_cons_self]
      simp
    · rw [mapSet_cons_ne _ _ _ hk]
      exact List.mem_cons_of_mem _ ih

theorem mapSet_entries {K V : Type} [DecidableEq K] {m : List (K × V)} {k : K} {v : V}
    (w : V) (h : mapGet m k = some v) :
    ∀ e ∈ m, e ∈ mapSet m k w ∨ e = (k, v) := by
  induction m with
  | nil => simp
  | cons e0 rest ih =>
    obtain ⟨k0, v0⟩ := e0
    intro e he
    by_cases hk : k0 = k
    · subst hk
      rw [mapGet_cons_self] at h
      cases h
      rw [mapSet_cons_self]
      rcases List.mem_cons.1 he with h' | h'
      · exact Or.inr h'
      · exact Or.inl (List.mem_cons_of_mem _ h')
    · rw [mapGet_cons_ne _ _ hk] at h
      rw [mapSet_cons_ne _ _ _ hk]
      rcases List.mem_cons.1 he with h' | h'
      · subst h'; exact Or.inl (List.mem_cons_self _ _)
      · rcases ih h e h' with h'' | h''
        · exact Or.inl (List.mem_cons_of_mem _ h'')
        · exact Or.inr h''

theorem mapSet_none_entries {K V : Type} [DecidableEq K] {m : List (K × V)} {k : K}
    (w : V) (h : mapGet m k = none) : ∀ e ∈ m, e ∈ mapSet m k w := by
  induction m with
  | nil => simp
  | cons e0 rest ih =>
    obtain ⟨k0, v0⟩ := e0
    intro e he
    by_cases hk : k0 = k
    · subst hk
      rw [mapGet_cons_self] at h
      cases h
    · rw [mapGet_cons_ne _ _ hk] at h
      rw [mapSet_cons_ne _ _ _ hk]
      rcases List.mem_cons.1 he with h' | h'
      · subst h'; exact List.mem_cons_self _ _
      · exact List.mem_cons_of_mem _ (ih h e h')

theorem mapGet_filter_key {K V : Type} [DecidableEq K] (m : List (K × V)) (p : K → Bool)
    (k : K) : mapGet (m.filter fun e => p e.1) k = if p k then mapGet m k else none := by
  induction m with
  | nil => simp [mapGet]
  | cons e0 rest ih =>
    obtain ⟨k0, v0⟩ := e0
    by_cases hp : p k0
    · rw [List.filter_cons_of_pos (by simpa using hp)]
      by_cases hk : k0 = k
      · subst hk
        rw [mapGet_cons_self, mapGet_cons_self, if_pos hp]
      · rw [mapGet_cons_ne _ _ hk, mapGet_cons_ne _ _ hk, ih]
    · rw [List.filter_cons_of_neg (by simpa using hp)]
      by_cases hk : k0 = k
      · subst hk
        rw [mapGet_cons_self, ih, if_neg hp, if_neg hp]
      · rw [mapGet_cons_ne _ _ hk, ih]

theorem alongGo_nan (d : Pt → Pt → ℚ) :
    ∀ (coords : List Pt) (prevPt : Option Pt) (travelled : ℚ),
      alongGo d none prevPt travelled coords = none := by
  intro coords
  induction coords with
  | nil => intro prevPt travelled; rfl
  | cons p rest ih =>
    intro prevPt travelled
    cases rest with
    | nil => simp [alongGo, jge]
    | cons q rest2 => simp [alongGo, jge, ih]

theorem getPointAtFraction_nan (d : Pt → Pt → ℚ) (g : Geom) :
    getPointAtFraction d g none = none := by
  cases g with
  | line c => simp [getPointAtFraction, gpafLine, jmul, along, alongGo_nan]
  | multi parts =>
    cases parts with
    | nil => rfl
    | cons c cs => simp [getPointAtFraction, gpafLine, jmul, along, alongGo_nan]
  | other => rfl

theorem lineLen_nonneg (d : Pt → Pt → ℚ) (hd : ∀ p q, 0 ≤ d p q) :
    ∀ coords : List Pt, 0 ≤ lineLen d coords := by
  intro coords
  induction coords with
  | nil => simp [lineLen]
  | cons p rest ih =>
    cases rest with
    | nil => simp [lineLen]
    | cons q rest2 =>
      simp only [lineLen]
      exact add_nonneg (hd p q) ih

theorem alongGo_some (d : Pt → Pt → ℚ) (dq : ℚ) (h0 : 0 ≤ dq) :
    ∀ (rest : List Pt) (p : Pt) (prevPt : Option Pt) (travelled : ℚ),
      (prevPt = none → travelled = 0) →
      (∀ pp, prevPt = some pp → travelled - d pp p < dq) →
      ∃ pt, alongGo d (some dq) prevPt travelled (p :: rest) = some pt := by
  intro rest
  induction rest with
  | nil =>
    intro p prevPt travelled hn hs
    by_cases hge : travelled ≤ dq
    · exact ⟨p, by simp [alongGo, jge, hge]⟩
    · have hlt : dq < travelled := lt_of_not_le hge
      have hne : ¬ dq - travelled = 0 := by
        intro hz
        exact absurd (by linarith : dq = travelled) (ne_of_lt hlt)
      cases prevPt with
      | none =>
        have := hn rfl
        exact absurd h0 (by rw [this] at hlt; exact not_le_of_lt hlt)
      | some pp =>
        have hdp : 0 < d pp p := by
          have := hs pp rfl
          linarith
        refine ⟨lerpPast pp p ((dq - travelled) / d pp p), ?_⟩
        simp [alongGo, jge, hge, le_of_lt hlt, overshotAt, hne, ne_of_gt hdp]
  | cons q rest2 ih =>
    intro p prevPt travelled hn hs
    by_cases hge : dq ≤ travelled
    · by_cases hz : dq - travelled = 0
      · exact ⟨p, by simp [alongGo, jge, hge, overshotAt, hz]⟩
      · have hlt : dq < travelled := lt_of_le_of_ne hge (fun hh => hz (by rw [hh]; ring))
        cases prevPt with
        | none =>
          have := hn rfl
          exact absurd h0 (by rw [this] at hlt; exact not_le_of_lt hlt)
        | some pp =>
          have hdp : 0 < d pp p := by
            have := hs pp rfl
            linarith
          refine ⟨lerpPast pp p ((dq - travelled) / d pp p), ?_⟩
          simp [alongGo, jge, hge, overshotAt, hz, ne_of_gt hdp]
    · have hlt : travelled < dq := lt_of_not_le hge
      have hrec := ih q (some p) (travelled + d p q) (by intro hh; cases hh)
        (by
          intro pp hpp
          cases hpp
          have : travelled + d p q - d p q = travelled := by ring
          rw [this]
          exact hlt)
      obtain ⟨pt, hpt⟩ := hrec
      refine ⟨pt, ?_⟩
      have hnge : ¬ jge (some travelled) (some dq) = true := by
        simp [jge, hge]
      simp only [alongGo, if_neg hnge]
      exact hpt

theorem along_some (d : Pt → Pt → ℚ) (coords : List Pt) (hne : coords ≠ [])
    (dq : ℚ) (h0 : 0 ≤ dq) : ∃ pt, along d coords (some dq) = some pt := by
  cases coords with
  | nil => exact absurd rfl hne
  | cons p rest =>
    exact alongGo_some d dq h0 rest p none 0 (fun _ => rfl) (by intro pp hpp; cases hpp)

theorem gpafLine_some (d : Pt → Pt → ℚ) (hd : ∀ p q, 0 ≤ d p q) (coords : List Pt)
    (hne : coords ≠ []) (fr : ℚ) (hfr : 0 ≤ fr) :
    ∃ pt, gpafLine d coords (some fr) = some pt := by
  have hdist : 0 ≤ lineLen d coords * fr := mul_nonneg (lineLen_nonneg d hd coords) hfr
  have := along_some d coords hne (lineLen d coords * fr) hdist
  simpa [gpafLine, jmul] using this

theorem getPointAtFraction_some (d : Pt → Pt → ℚ) (hd : ∀ p q, 0 ≤ d p q) (g : Geom)
    (hg : geomOk g = true) (fr : ℚ) (hfr : 0 ≤ fr) :
    ∃ pt, getPointAtFraction d g (some fr) = some pt := by
  cases g with
  | line c =>
    have hne : c ≠ [] := by
      simpa [geomOk, List.isEmpty_iff] using hg
    simpa [getPointAtFraction] using gpafLine_some d hd c hne fr hfr
  | multi parts =>
    cases parts with
    | nil => simp [geomOk] at hg
    | cons c cs =>
      have hlen : 2 ≤ c.length := by simpa [geomOk] using hg
      have hne : c ≠ [] := by
        intro hh
        rw [hh] at hlen
        simp at hlen
      have hnlt : ¬ c.length < 2 := not_lt_of_le hlen
      simpa [getPointAtFraction, hnlt] using gpafLine_some d hd c hne fr hfr
  | other => simp [geomOk] at hg

theorem scanStops_next_none (clock : ℚ) :
    ∀ (l : List StopTimeUpdate) (prev : Option ℚ),
      (∀ st ∈ l, scanTime st ≤ clock) → (scanStops clock prev l).2 = none := by
  intro l
  induction l with
  | nil => intro prev _; rfl
  | cons st rest ih =>
    intro prev hall
    have h1 : scanTime st ≤ clock := hall st (List.mem_cons_self _ _)
    simp only [scanStops, if_pos h1]
    exact ih _ (fun st2 h2 => hall st2 (List.mem_cons_of_mem _ h2))

theorem scanStops_prev_isSome (clock : ℚ) :
    ∀ (l : List StopTimeUpdate) (x : ℚ), (scanStops clock (some x) l).1.isSome := by
  intro l
  induction l with
  | nil => intro x; rfl
  | cons st rest ih =>
    intro x
    by_cases h1 : scanTime st ≤ clock
    · simp only [scanStops, if_pos h1]
      exact ih _
    · simp only [scanStops, if_neg h1]
      rfl

theorem scanStops_success (clock : ℚ) :
    ∀ (l : List StopTimeUpdate) (x : ℚ), (∃ st ∈ l, clock < scanTime st) →
      ∃ a b, scanStops clock (some x) l = (some a, some b) := by
  intro l
  induction l with
  | nil =>
    intro x hex
    obtain ⟨st, hmem, _⟩ := hex
    cases hmem
  | cons st rest ih =>
    intro x hex
    by_cases h1 : scanTime st ≤ clock
    · obtain ⟨st2, hmem, hgt⟩ := hex
      have hst2 : st2 ∈ rest := by
        rcases List.mem_cons.1 hmem with h | h
        · subst h; exact absurd h1 (not_le_of_lt hgt)
        · exact h
      simp only [scanStops, if_pos h1]
      exact ih _ ⟨st2, hst2, hgt⟩
    · exact ⟨x, scanTime st, by simp only [scanStops, if_neg h1]⟩

theorem scanStops_next_gt (clock : ℚ) :
    ∀ (l : List StopTimeUpdate) (prev : Option ℚ) (b : ℚ),
      (scanStops clock prev l).2 = some b → ∃ st ∈ l, clock < scanTime st ∧ scanTime st = b := by
  intro l
  induction l with
  | nil => intro prev b h; cases h
  | cons st rest ih =>
    intro prev b h
    by_cases h1 : scanTime st ≤ clock
    · simp only [scanStops, if_pos h1] at h
      obtain ⟨st2, hmem, hgt, heq⟩ := ih _ _ h
      exact ⟨st2, List.mem_cons_of_mem _ hmem, hgt, heq⟩
    · simp only [scanStops, if_neg h1] at h
      cases h
      exact ⟨st, List.mem_cons_self _ _, lt_of_not_le h1, rfl⟩

theorem pairwise_le_getLast :
    ∀ (sts : List StopTimeUpdate) (lst : StopTimeUpdate),
      sts.Pairwise (fun a b => scanTime a ≤ scanTime b) →
      sts.getLast? = some lst → ∀ st ∈ sts, scanTime st ≤ scanTime lst := by
  intro sts
  induction sts with
  | nil => intro lst _ hlst; cases hlst
  | cons h t ih =>
    intro lst hpw hlst st hst
    cases t with
    | nil =>
      simp only [List.getLast?_singleton, Option.some.injEq] at hlst
      rcases List.mem_cons.1 hst with h' | h'
      · subst h'; rw [hlst]
      · cases h'
    | cons h2 t2 =>
      rw [List.getLast?_cons_cons] at hlst
      rcases List.mem_cons.1 hst with h' | h'
      · subst h'
        exact (List.pairwise_cons.1 hpw).1 lst (List.mem_of_getLast?_eq_some hlst)
      · exact ih lst (List.pairwise_cons.1 hpw).2 hlst st h'

theorem evTime_some_scanTime {st : StopTimeUpdate} {T : ℚ} (h : evTime st = some T) :
    scanTime st = T := by
  simp [scanTime, h]

theorem jsub_none_left (y : JQ) : jsub none y = none := by
  cases y <;> rfl

theorem jdiv_none_right (x : JQ) : jdiv x none = none := by
  cases x <;> rfl

theorem jdiv_sub_ne {a s e : ℚ} (h : e ≠ s) :
    jdiv (jsub (some a) (some s)) (jsub (some e) (some s)) = some ((a - s) / (e - s)) := by
  simp [jsub, jdiv, sub_eq_zero, h]

theorem resolveGate_eq_some {clock : ℚ} {st0 : StopTimeUpdate} {rest : List StopTimeUpdate}
    (hne : rest ≠ []) {lst : StopTimeUpdate} (hlst : (st0 :: rest).getLast? = some lst)
    (hs0 : scanTime st0 ≤ clock) (hsl : clock < scanTime lst)
    (hu0 : (evTime st0).isSome) (hul : (evTime lst).isSome) :
    resolveGate clock (st0 :: rest) = some (some (scanTime st0), some (scanTime lst)) := by
  have hlen : ¬ (st0 :: rest).length < 2 := by
    cases rest with
    | nil => exact absurd rfl hne
    | cons a b => simp
  have hlmem : lst ∈ rest := by
    rcases List.mem_cons.1 (List.mem_of_getLast?_eq_some hlst) with h | h
    · subst h; exact absurd hs0 (not_le_of_lt hsl)
    · exact h
  obtain ⟨a, b, hscan⟩ := scanStops_success clock rest (scanTime st0) ⟨lst, hlmem, hsl⟩
  have hscan0 : scanStops clock none (st0 :: rest) = (some a, some b) := by
    simp only [scanStops, if_pos hs0]
    exact hscan
  have hjlt : jlt (some clock) (evTime st0) = false := by
    rw [evTime_eq_scanTime hu0]
    simp [jlt, not_lt.2 hs0]
  have hjgt : jgt (some clock) (evTime lst) = false := by
    rw [evTime_eq_scanTime hul]
    simp [jgt, not_lt.2 (le_of_lt hsl)]
  have hhead : (st0 :: rest).head? = some st0 := rfl
  simp only [resolveGate, if_neg hlen, hscan0, hhead, hlst, hjlt, hjgt]
  rw [evTime_eq_scanTime hu0, evTime_eq_scanTime hul]
  simp

theorem resolveGate_none_low {clock : ℚ} {st0 : StopTimeUpdate} {rest : List StopTimeUpdate}
    (hlow : clock < scanTime st0) : resolveGate clock (st0 :: rest) = none := by
  by_cases hlen : (st0 :: rest).length < 2
  · simp only [resolveGate, if_pos hlen]
  · have hscan0 : scanStops clock none (st0 :: rest) = (none, some (scanTime st0)) := by
      simp only [scanStops, if_neg (not_le_of_lt hlow)]
    simp only [resolveGate, if_neg hlen, hscan0]

theorem resolveGate_none_high {clock : ℚ} {sts : List StopTimeUpdate}
    (hall : ∀ st ∈ sts, scanTime st ≤ clock) : resolveGate clock sts = none := by
  by_cases hlen : sts.length < 2
  · simp only [resolveGate, if_pos hlen]
  · have h2 := scanStops_next_none clock sts none hall
    rcases hscan : scanStops clock none sts with ⟨p1, p2⟩
    rw [hscan] at h2
    simp only at h2
    subst h2
    cases p1 with
    | none => simp only [resolveGate, if_neg hlen, hscan]
    | some x => simp only [resolveGate, if_neg hlen, hscan]

theorem calcPos_eq (d : Pt → Pt → ℚ) (tu : TripUpdate) (lf : Feature) (clock : ℚ)
    {sts : List StopTimeUpdate} {s e : JQ} (hsts : tu.stopTimeUpdate = some sts)
    (hgate : resolveGate clock sts = some (s, e)) :
    calculatePositionOnRoute d tu lf clock =
      getPointAtFraction d lf.geom (jdiv (jsub (some clock) s) (jsub e s)) := by
  simp only [calculatePositionOnRoute, hsts, hgate]

theorem calcPos_none (d : Pt → Pt → ℚ) (tu : TripUpdate) (lf : Feature) (clock : ℚ)
    {sts : List StopTimeUpdate} (hsts : tu.stopTimeUpdate = some sts)
    (hgate : resolveGate clock sts = none) :
    calculatePositionOnRoute d tu lf clock = none := by
  simp only [calculatePositionOnRoute, hsts, hgate]

/-! ### Claim theorems -/

/-- C1, amended: for a trip schedule with at least two timestamped events
(feed order, non-decreasing timestamps) and a usable geometry, the
resolver returns not-active for every clock strictly before `startTime`
or at/after `endTime`, and a valid interpolated point for every clock
with `startTime ≤ clock < endTime`.  The activity window is inclusive at
`startTime` but *exclusive* at `endTime`: at `clock = endTime` no event
with a strictly larger timestamp exists, the bracketing scan finds no
`nextStop`, and the trip is not rendered. -/
theorem c1_window (d : Pt → Pt → ℚ) (hd : ∀ p q, 0 ≤ d p q)
    (lf : Feature) (hg : geomOk lf.geom = true)
    (tu : TripUpdate) (st0 : StopTimeUpdate) (rest : List StopTimeUpdate)
    (hsts : tu.stopTimeUpdate = some (st0 :: rest)) (hne : rest ≠ [])
    (lst : StopTimeUpdate) (hlst : (st0 :: rest).getLast? = some lst)
    (hu : ∀ st ∈ st0 :: rest, (evTime st).isSome)
    (hm : (st0 :: rest).Pairwise (fun a b => scanTime a ≤ scanTime b))
    (clock : ℚ) :
    ((clock < scanTime st0 ∨ scanTime lst ≤ clock) →
      calculatePositionOnRoute d tu lf clock = none) ∧
    (scanTime st0 ≤ clock → clock < scanTime lst →
      ∃ pt, calculatePositionOnRoute d tu lf clock = some pt) := by
  constructor
  · rintro (hlow | hhigh)
    · exact calcPos_none d tu lf clock hsts (resolveGate_none_low hlow)
    · refine calcPos_none d tu lf clock hsts (resolveGate_none_high ?_)
      intro st hst
      exact le_trans (pairwise_le_getLast _ lst hm hlst st hst) hhigh
  · intro hs0 hsl
    have hu0 : (evTime st0).isSome := hu st0 (List.mem_cons_self _ _)
    have hul : (evTime lst).isSome := hu lst (List.mem_of_getLast?_eq_some hlst)
    have hgate := resolveGate_eq_some hne hlst hs0 hsl hu0 hul
    rw [calcPos_eq d tu lf clock hsts hgate]
    have hlt : scanTime st0 < scanTime lst := lt_of_le_of_lt hs0 hsl
    rw [jdiv_sub_ne (ne_of_gt hlt)]
    exact getPointAtFraction_some d hd lf.geom hg _
      (div_nonneg (by linarith) (by linarith))

/-- C1 counterexample: a trip with events at t=1000 and t=1100 on a
nonempty straight route is claimed active at `clock = endTime = 1100`
(inclusive upper boundary); the code returns not-active there, because
no event has a timestamp strictly greater than the clock and the
bracketing scan finds no `nextStop`. -/
theorem c1_cex : calculatePositionOnRoute taxi tuA lfA 1100 = none := by
  with_unfolding_all rfl

/-- C1 witness: applying the amended window theorem at a concrete trip:
not-active below the window and at the end time, active strictly
inside. -/
theorem c1_witness :
    calculatePositionOnRoute taxi tuA lfA 999 = none ∧
    (∃ pt, calculatePositionOnRoute taxi tuA lfA 1050 = some pt) := by
  constructor
  · exact (c1_window taxi (by intro p q; simp only [taxi, qabs]; split_ifs <;> linarith) lfA (by decide) tuA
      ⟨some 1000, none⟩ [⟨some 1100, none⟩] rfl (by simp) ⟨some 1100, none⟩ (by decide)
      (by decide) (by decide) 999).1 (by left; decide)
  · exact (c1_window taxi (by intro p q; simp only [taxi, qabs]; split_ifs <;> linarith) lfA (by decide) tuA
      ⟨some 1000, none⟩ [⟨some 1100, none⟩] rfl (by simp) ⟨some 1100, none⟩ (by decide)
      (by decide) (by decide) 1050).2 (by decide) (by decide)

/-- C2, amended: an event carrying neither an arrival nor a departure
timestamp is *not* skipped.  In the bracketing scan it carries the
implicit timestamp 0 (`parseInt(... || 0)`), so for any nonnegative clock
it immediately supplies a `prevStop`; and when it is the trip's last
event, the parsed `endTime` is NaN, the boundary check passes vacuously,
the fraction is NaN and the point lookup fails, so the *whole trip* is
dropped for the frame instead of the one event being ignored. -/
theorem c2_unusable_event :
    (∀ (clock : ℚ) (st : StopTimeUpdate) (rest : List StopTimeUpdate),
      evTime st = none → 0 ≤ clock →
      (scanStops clock none (st :: rest)).1.isSome) ∧
    (∀ (d : Pt → Pt → ℚ) (tu : TripUpdate) (lf : Feature)
      (sts : List StopTimeUpdate) (lst : StopTimeUpdate) (clock : ℚ),
      tu.stopTimeUpdate = some sts → sts.getLast? = some lst → evTime lst = none →
      calculatePositionOnRoute d tu lf clock = none) := by
  constructor
  · intro clock st rest hnone hclock
    have hzero : scanTime st = 0 := by simp [scanTime, hnone]
    have hle : scanTime st ≤ clock := by rw [hzero]; exact hclock
    simp only [scanStops, if_pos hle]
    exact scanStops_prev_isSome clock rest _
  · intro d tu lf sts lst clock hsts hlst hnone
    by_cases hlen : sts.length < 2
    · exact calcPos_none d tu lf clock hsts (by simp only [resolveGate, if_pos hlen])
    · rcases hscan : scanStops clock none sts with ⟨p1, p2⟩
      rcases p1 with _ | a
      · exact calcPos_none d tu lf clock hsts
          (by simp only [resolveGate, if_neg hlen, hscan])
      · rcases p2 with _ | b
        · exact calcPos_none d tu lf clock hsts
            (by simp only [resolveGate, if_neg hlen, hscan])
        · cases sts with
          | nil => simp at hlen
          | cons h t =>
            have hhead : (h :: t).head? = some h := rfl
            by_cases hb :
                (jlt (some clock) (evTime h) || jgt (some clock) (evTime lst)) = true
            · exact calcPos_none d tu lf clock hsts
                (by simp only [resolveGate, if_neg hlen, hscan, hhead, hlst, if_pos hb])
            · have hgate : resolveGate clock (h :: t) = some (evTime h, evTime lst) := by
                simp only [resolveGate, if_neg hlen, hscan, hhead, hlst, if_neg hb]
              rw [calcPos_eq d tu lf clock hsts hgate, hnone, jsub_none_left,
                jdiv_none_right, getPointAtFraction_nan]

/-- C2 counterexample: appending an event with neither timestamp to a
two-event schedule changes the resolver's output (the whole trip is
dropped), whereas the claim — skip the malformed event individually —
would leave the result of the two usable events (the midpoint) intact. -/
theorem c2_cex :
    calculatePositionOnRoute taxi
      ⟨"t1", .num 7, some [⟨some 1000, none⟩, ⟨some 1100, none⟩, ⟨none, none⟩]⟩
      lfA 1050 = none ∧
    calculatePositionOnRoute taxi tuA lfA 1050 = some (0, 1/2) := by
  constructor
  · with_unfolding_all rfl
  · with_unfolding_all rfl

/-- C2 witness: the amended behaviour at concrete inputs — a timestamp-free
event at the head immediately yields a `prevStop`, and one in last
position drops the whole trip. -/
theorem c2_witness :
    (scanStops 1000 none [⟨none, none⟩, ⟨some 1100, none⟩]).1.isSome ∧
    calculatePositionOnRoute taxi
      ⟨"t1", .num 7, some [⟨some 1000, none⟩, ⟨some 1100, none⟩, ⟨none, none⟩]⟩
      lfA 1050 = none := by
  constructor
  · exact c2_unusable_event.1 1000 ⟨none, none⟩ [⟨some 1100, none⟩] (by decide) (by norm_num)
  · exact c2_unusable_event.2 taxi _ lfA _ ⟨none, none⟩ 1050 rfl (by decide) (by decide)

/-- C3: for an active trip the overall fractional progress is the single
global ratio `(clock - startTime) / (endTime - startTime)` — linear over
the whole trip span, never re-normalized between the bracketing stops —
and the rendered point is the point-at-fraction of the route's arc
length; concretely, events at t=1000 and t=1100 on the straight route
from (0,0) to (0,1) resolve at clock=1050 to the geometric midpoint
(0, 1/2), for every distance function giving the segment positive
length. -/
theorem c3_linear_progress (d : Pt → Pt → ℚ)
    (lf : Feature) (tu : TripUpdate) (st0 : StopTimeUpdate) (rest : List StopTimeUpdate)
    (hsts : tu.stopTimeUpdate = some (st0 :: rest)) (hne : rest ≠ [])
    (lst : StopTimeUpdate) (hlst : (st0 :: rest).getLast? = some lst)
    (hu0 : (evTime st0).isSome) (hul : (evTime lst).isSome)
    (clock : ℚ) (hs0 : scanTime st0 ≤ clock) (hsl : clock < scanTime lst) :
    calculatePositionOnRoute d tu lf clock =
      getPointAtFraction d lf.geom
        (some ((clock - scanTime st0) / (scanTime lst - scanTime st0))) ∧
    ∀ d2 : Pt → Pt → ℚ, 0 < d2 (0, 0) (0, 1) →
      calculatePositionOnRoute d2 tuA lfA 1050 = some (0, 1/2) := by
  constructor
  · have hgate := resolveGate_eq_some hne hlst hs0 hsl hu0 hul
    rw [calcPos_eq d tu lf clock hsts hgate]
    rw [jdiv_sub_ne (ne_of_gt (lt_of_le_of_lt hs0 hsl))]
  · intro d2 hL
    have hgate : resolveGate 1050 [(⟨some 1000, none⟩ : StopTimeUpdate), ⟨some 1100, none⟩]
        = some (some 1000, some 1100) := by decide
    rw [calcPos_eq d2 tuA lfA 1050 rfl hgate]
    have hfr : jdiv (jsub (some 1050) (some 1000)) (jsub (some 1100) (some 1000))
        = some (1/2) := by
      rw [jdiv_sub_ne (by norm_num)]
      norm_num
    rw [hfr]
    have hlen2 : lineLen d2 [((0 : ℚ), (0 : ℚ)), (0, 1)] = d2 (0, 0) (0, 1) := by
      simp [lineLen]
    show getPointAtFraction d2 (Geom.line [(0, 0), (0, 1)]) (some (1/2)) = some (0, 1/2)
    set L := d2 (0, 0) (0, 1) with hLdef
    have hdist : jmul (some (lineLen d2 [((0 : ℚ), (0 : ℚ)), (0, 1)])) (some (1/2))
        = some (L * (1/2)) := by
      rw [hlen2]
      rfl
    simp only [getPointAtFraction, gpafLine, along, hdist]
    have hg1 : jge (some (L * (1/2))) (some (0 : ℚ)) = true := by
      simp [jge]
      positivity
    have hng1 : jge (some (0 : ℚ)) (some (L * (1/2))) = false := by
      simp [jge]
      nlinarith
    have hstep : alongGo d2 (some (L * (1/2))) none 0 [((0 : ℚ), (0 : ℚ)), (0, 1)]
        = alongGo d2 (some (L * (1/2))) (some (0, 0)) (0 + d2 (0, 0) (0, 1)) [((0 : ℚ), 1)] := by
      simp only [alongGo, hng1]
      rfl
    rw [hstep]
    have hng2 : jge (some (L * (1/2))) (some (0 + L)) = false := by
      simp [jge]
      nlinarith
    have hg2 : jge (some (0 + L)) (some (L * (1/2))) = true := by
      simp [jge]
      nlinarith
    simp only [alongGo, hng2, hg2, Bool.false_eq_true, if_false, if_true, ← hLdef]
    have hovershot : L * (1/2) - (0 + L) ≠ 0 := by nlinarith
    simp only [overshotAt, if_neg hovershot, if_neg (ne_of_gt hL)]
    have hr : (L * (1/2) - (0 + L)) / L = -(1/2) := by
      field_simp
      ring
    rw [hr]
    simp [lerpPast]
    norm_num

/-- C3 witness: the concrete midpoint scenario through the theorem, with
the taxicab instantiation of the distance. -/
theorem c3_witness : calculatePositionOnRoute taxi tuA lfA 1050 = some (0, 1/2) :=
  (c3_linear_progress taxi lfA tuA ⟨some 1000, none⟩ [⟨some 1100, none⟩] rfl
    (by simp) ⟨some 1100, none⟩ (by decide) (by decide) (by decide) 1050
    (by decide) (by decide)).2 taxi (by norm_num [taxi, qabs])

/-- C10, amended: when the usable timestamps are non-decreasing in feed
order, the division site is never reached with `endTime = startTime` —
reaching it forces `startTime < endTime`; and whenever all events carry
one identical timestamp the bracketing scan fails and the resolver
returns not-active before dividing.  (With non-monotone timestamps the
division *can* be reached with a zero span: see the counterexample.) -/
theorem c10_no_zero_span :
    (∀ (clock : ℚ) (sts : List StopTimeUpdate),
      (∀ st ∈ sts, (evTime st).isSome) →
      sts.Pairwise (fun a b => scanTime a ≤ scanTime b) →
      ∀ s e, resolveGate clock sts = some (s, e) →
      ∃ qs qe, s = some qs ∧ e = some qe ∧ qs < qe) ∧
    (∀ (clock T : ℚ) (sts : List StopTimeUpdate),
      (∀ st ∈ sts, evTime st = some T) → resolveGate clock sts = none) := by
  constructor
  · intro clock sts hu hm s e hgate
    by_cases hlen : sts.length < 2
    · rw [resolveGate, if_pos hlen] at hgate
      cases hgate
    · rcases hscan : scanStops clock none sts with ⟨p1, p2⟩
      rcases p1 with _ | a
      · rw [resolveGate, if_neg hlen, hscan] at hgate
        cases hgate
      · rcases p2 with _ | b
        · rw [resolveGate, if_neg hlen, hscan] at hgate
          cases hgate
        · cases sts with
          | nil => simp at hlen
          | cons h t =>
            have hhead : (h :: t).head? = some h := rfl
            rcases hlast : (h :: t).getLast? with _ | lst
            · simp at hlast
            · by_cases hb :
                  (jlt (some clock) (evTime h) || jgt (some clock) (evTime lst)) = true
              · have hg2 : resolveGate clock (h :: t) = none := by
                  simp only [resolveGate, if_neg hlen, hscan, hhead, hlast, if_pos hb]
                rw [hg2] at hgate
                cases hgate
              · have hg2 : resolveGate clock (h :: t) = some (evTime h, evTime lst) := by
                  simp only [resolveGate, if_neg hlen, hscan, hhead, hlast, if_neg hb]
                rw [hg2] at hgate
                have hu0 : (evTime h).isSome := hu h (List.mem_cons_self _ _)
                have hul : (evTime lst).isSome :=
                  hu lst (List.mem_of_getLast?_eq_some hlast)
                rw [evTime_eq_scanTime hu0, evTime_eq_scanTime hul] at hgate
                cases hgate
                refine ⟨scanTime h, scanTime lst, rfl, rfl, ?_⟩
                have hble : ¬ (clock < scanTime h) := by
                  intro hlt
                  apply hb
                  rw [evTime_eq_scanTime hu0]
                  simp [jlt, hlt]
                obtain ⟨st2, hmem, hgt, _⟩ := scanStops_next_gt clock (h :: t) none b
                  (by rw [hscan])
                have hle2 : scanTime st2 ≤ scanTime lst :=
                  pairwise_le_getLast _ lst hm hlast st2 hmem
                have := not_lt.1 hble
                linarith
  · intro clock T sts hall
    by_cases hlen : sts.length < 2
    · rw [resolveGate, if_pos hlen]
    · cases sts with
      | nil => simp at hlen
      | cons h t =>
        by_cases hT : T ≤ clock
        · apply resolveGate_none_high
          intro st hst
          rw [evTime_some_scanTime (hall st hst)]
          exact hT
        · apply resolveGate_none_low
          rw [evTime_some_scanTime (hall h (List.mem_cons_self _ _))]
          exact lt_of_not_le hT

/-- C10 counterexample: the events 500, 1000, 500 (feed order, not
monotone) at clock 500 pass every guard — the scan brackets 500 ≤ 500 <
1000 and the boundary check holds — so the division *is* reached with
`endTime = startTime = 500`, contrary to the claim that this is
impossible. -/
theorem c10_cex :
    resolveGate 500 [⟨some 500, none⟩, ⟨some 1000, none⟩, ⟨some 500, none⟩]
      = some (some 500, some 500) := by decide

/-- C10 witness: the amended theorem applied to a concrete monotone
schedule (gate yields a strictly positive span) and to a concrete
constant-timestamp schedule (resolver rejects before dividing). -/
theorem c10_witness :
    (∃ qs qe, (some (1000 : ℚ) : JQ) = some qs ∧ (some (1100 : ℚ) : JQ) = some qe ∧ qs < qe) ∧
    resolveGate 777 [(⟨some 50, none⟩ : StopTimeUpdate), ⟨some 50, none⟩] = none := by
  constructor
  · exact c10_no_zero_span.1 1050 [⟨some 1000, none⟩, ⟨some 1100, none⟩]
      (by decide) (by decide) (some 1000) (some 1100) (by decide)
  · exact c10_no_zero_span.2 777 50 [⟨some 50, none⟩, ⟨some 50, none⟩] (by decide)

/-- C4: a clock tick in the Paused state leaves `currentTime` unchanged;
in the Playing state, on any state satisfying the
`minTime ≤ currentTime ≤ maxTime` invariant and with nonnegative wall
delta and speed, it advances `currentTime` by exactly
`dt × 30 × speedMultiplier` (fixed base rate 30 data-seconds per
wall-second), and an advance past `maxTime` hard-resets to exactly
`minTime`, discarding the residual overflow, whatever the overshoot. -/
theorem c4_tick (dt : ℚ) (s : PB) :
    (s.isPlaying = false → (animate dt s).currentTime = s.currentTime) ∧
    (s.isPlaying = true → s.minTime ≤ s.currentTime → s.currentTime ≤ s.maxTime →
      0 ≤ dt → 0 ≤ s.playbackSpeed →
      (animate dt s).currentTime =
        (if s.maxTime < s.currentTime + dt * 30 * s.playbackSpeed then s.minTime
         else s.currentTime + dt * 30 * s.playbackSpeed)) := by
  constructor
  · intro hp
    simp [animate, hp]
  · intro hp h1 h2 hdt hsp
    by_cases hmm : s.minTime < s.maxTime
    · simp [animate, hp, hmm]
    · have hme : s.maxTime ≤ s.minTime := le_of_not_lt hmm
      have hcm : s.currentTime = s.minTime := le_antisymm (le_trans h2 hme) h1
      have hanim : (animate dt s).currentTime = s.currentTime := by
        simp [animate, hp, hmm]
      rw [hanim]
      have hx : 0 ≤ dt * 30 * s.playbackSpeed := by positivity
      by_cases hadv : s.maxTime < s.currentTime + dt * 30 * s.playbackSpeed
      · rw [if_pos hadv]
        exact hcm
      · rw [if_neg hadv]
        have hx0 : dt * 30 * s.playbackSpeed = 0 := by
          have hle : s.currentTime + dt * 30 * s.playbackSpeed ≤ s.maxTime :=
            le_of_not_lt hadv
          have hmm2 : s.minTime = s.maxTime := le_antisymm (le_trans h1 h2) hme
          rw [hcm, hmm2] at hle
          linarith
        rw [hx0, add_zero]

/-- C4 witness: ticking one wall-second at speed 10 from
`currentTime = minTime = 1000` with `maxTime = 1100` overshoots by 200
and hard-resets to exactly 1000; a paused tick changes nothing. -/
theorem c4_witness :
    (animate 1 ⟨1000, 1000, 1100, true, 10⟩).currentTime = 1000 ∧
    (animate 1 ⟨1000, 1000, 1100, false, 10⟩).currentTime = 1000 := by
  constructor
  · have h := (c4_tick 1 ⟨1000, 1000, 1100, true, 10⟩).2 rfl (by norm_num) (by norm_num)
      (by norm_num) (by norm_num)
    rw [h]
    norm_num
  · exact (c4_tick 1 ⟨1000, 1000, 1100, false, 10⟩).1 rfl

/-- C9: manual scrubbing clamps every requested time into
`[minTime, maxTime]` — the resulting `currentTime` is exactly
`max minTime (min t maxTime)` — and the rest of the playback state,
including the play/pause flag, is untouched. -/
theorem c9_setTime_clamp (s : PB) (t : ℚ) (h : s.minTime ≤ s.maxTime) :
    (setTime s t).currentTime = max s.minTime (min t s.maxTime) ∧
    (setTime s t).isPlaying = s.isPlaying ∧
    (setTime s t).minTime = s.minTime ∧
    (setTime s t).maxTime = s.maxTime ∧
    (setTime s t).playbackSpeed = s.playbackSpeed := by
  refine ⟨?_, rfl, rfl, rfl, rfl⟩
  simp only [setTime]
  by_cases h1 : s.maxTime < t
  · rw [if_pos h1, min_eq_right (le_of_lt h1), max_eq_right h]
  · rw [if_neg h1]
    by_cases h2 : t < s.minTime
    · rw [if_pos h2, min_eq_left (le_of_not_lt h1), max_eq_left (le_of_lt h2)]
    · rw [if_neg h2, min_eq_left (le_of_not_lt h1), max_eq_right (le_of_not_lt h2)]

/-- C9 witness: scrubbing to 250 on the window [0, 100] while playing
lands on the clamp value and leaves the play flag alone. -/
theorem c9_witness :
    (setTime ⟨50, 0, 100, true, 1⟩ 250).currentTime = max 0 (min 250 100) ∧
    (setTime ⟨50, 0, 100, true, 1⟩ 250).isPlaying = true := by
  have h := c9_setTime_clamp ⟨50, 0, 100, true, 1⟩ 250 (by norm_num)
  exact ⟨h.1, h.2.1⟩

theorem mapGet_registerFold (f : Feature) (k : String) :
    ∀ (cands : List (Option JsVal)) (m : Cache),
      mapGet (cands.foldl (fun m idOpt =>
        match idOpt with
        | some v => mapSet m v.toStr f
        | none => m) m) k =
      if k ∈ cands.filterMap (fun o => o.map JsVal.toStr) then some f else mapGet m k := by
  intro cands
  induction cands with
  | nil => intro m; simp
  | cons c rest ih =>
    intro m
    cases c with
    | none =>
      simp only [List.foldl_cons]
      rw [ih]
      simp
    | some v =>
      simp only [List.foldl_cons]
      rw [ih]
      by_cases hk : k ∈ rest.filterMap (fun o => o.map JsVal.toStr)
      · rw [if_pos hk, if_pos]
        simp only [List.filterMap_cons, Option.map_some']
        exact List.mem_cons_of_mem _ hk
      · rw [if_neg hk, mapGet_mapSet]
        by_cases hv : v.toStr = k
        · rw [if_pos hv, if_pos]
          simp only [List.filterMap_cons, Option.map_some']
          exact hv ▸ List.mem_cons_self _ _
        · rw [if_neg hv, if_neg]
          simp only [List.filterMap_cons, Option.map_some', List.mem_cons]
          rintro (h | h)
          · exact hv h.symm
          · exact hk h

theorem mapGet_registerFeature (m : Cache) (f : Feature) (k : String) :
    mapGet (registerFeature m f) k = if k ∈ featCands f then some f else mapGet m k := by
  rcases hp : f.props with _ | p
  · simp [registerFeature, hp, featCands]
  · simp only [registerFeature, hp, featCands]
    exact mapGet_registerFold f k (possibleIds p) m

theorem mapGet_build_aux (f : Feature) (k : String) :
    ∀ (feats : List Feature) (m : Cache),
      (∀ g ∈ feats, k ∈ featCands g → g = f) →
      ((f ∈ feats ∧ k ∈ featCands f) ∨ mapGet m k = some f) →
      mapGet (feats.foldl registerFeature m) k = some f := by
  intro feats
  induction feats with
  | nil =>
    intro m _ hcase
    rcases hcase with ⟨hmem, _⟩ | hm
    · cases hmem
    · simpa using hm
  | cons g rest ih =>
    intro m huniq hcase
    simp only [List.foldl_cons]
    by_cases hkg : k ∈ featCands g
    · have hgf : g = f := huniq g (List.mem_cons_self _ _) hkg
      subst hgf
      refine ih _ (fun g2 h2 hk2 => huniq g2 (List.mem_cons_of_mem _ h2) hk2) (Or.inr ?_)
      rw [mapGet_registerFeature, if_pos hkg]
    · rcases hcase with ⟨hmem, hkf⟩ | hm
      · rcases List.mem_cons.1 hmem with he | he
        · subst he; exact absurd hkf hkg
        · exact ih _ (fun g2 h2 hk2 => huniq g2 (List.mem_cons_of_mem _ h2) hk2)
            (Or.inl ⟨he, hkf⟩)
      · refine ih _ (fun g2 h2 hk2 => huniq g2 (List.mem_cons_of_mem _ h2) hk2) (Or.inr ?_)
        rw [mapGet_registerFeature, if_neg hkg]
        exact hm

/-- C5, amended: lookup in the rebuilt route cache returns the *last*
feature registered under a key (JS `Map.set` last-write-wins); therefore
when no candidate key is shared by two distinct features, looking up any
registered candidate identifier of a feature returns that same feature;
and a feature whose raw ROUTE_ID field holds the numeric value 12 is
retrievable under the string key "12". -/
theorem c5_cache_alias :
    (∀ (feats : List Feature),
      (∀ f ∈ feats, ∀ g ∈ feats, ∀ k, k ∈ featCands f → k ∈ featCands g → f = g) →
      ∀ f ∈ feats, ∀ k ∈ featCands f,
        mapGet (rebuildRouteCache feats) k = some f) ∧
    (∀ (p : FProps) (g : Geom), p.ROUTE_ID = some (.num 12) →
      mapGet (rebuildRouteCache [⟨some p, g⟩]) "12" = some ⟨some p, g⟩) := by
  constructor
  · intro feats huniq f hf k hk
    exact mapGet_build_aux f k feats []
      (fun g hg hkg => huniq g hg f hf k hkg hk) (Or.inl ⟨hf, hk⟩)
  · intro p g hpid
    have hbuild : rebuildRouteCache [(⟨some p, g⟩ : Feature)]
        = registerFeature [] ⟨some p, g⟩ := by
      simp [rebuildRouteCache]
    rw [hbuild, mapGet_registerFeature, if_pos]
    simp only [featCands, possibleIds, hpid, List.filterMap_cons, Option.map_some',
      List.mem_cons]
    left
    decide

/-- C5 counterexample: two distinct features both registered under the
candidate key "7"; the later one wins the lookup, so looking up the
first feature's registered candidate "7" does not return that
feature. -/
theorem c5_cex :
    mapGet (rebuildRouteCache
      [⟨some ⟨some (.num 7), none, none, none, none, none⟩, .line [(0, 0), (1, 1)]⟩,
       ⟨some ⟨some (.num 7), none, none, none, none, none⟩, .line [(2, 2), (3, 3)]⟩]) "7"
      = some ⟨some ⟨some (.num 7), none, none, none, none, none⟩, .line [(2, 2), (3, 3)]⟩ ∧
    (⟨some ⟨some (.num 7), none, none, none, none, none⟩, .line [(2, 2), (3, 3)]⟩ : Feature)
      ≠ ⟨some ⟨some (.num 7), none, none, none, none, none⟩, .line [(0, 0), (1, 1)]⟩ := by
  constructor
  · with_unfolding_all rfl
  · decide

/-- C5 witness: a single feature whose numeric ROUTE_ID is 12 is found
under the lookup key "12". -/
theorem c5_witness :
    mapGet (rebuildRouteCache [⟨some ⟨some (.num 12), none, none, none, none, none⟩,
      .line [(0, 0), (0, 1)]⟩]) "12"
      = some ⟨some ⟨some (.num 12), none, none, none, none, none⟩, .line [(0, 0), (0, 1)]⟩ :=
  c5_cache_alias.2 ⟨some (.num 12), none, none, none, none, none⟩ (.line [(0, 0), (0, 1)]) rfl

theorem resolveEntity_tripId {d : Pt → Pt → ℚ} {cache : Cache} {clock : ℚ} {e : Entity}
    {t : String} {pos : Pt} {lf : Feature}
    (h : resolveEntity d cache clock e = some (t, pos, lf)) :
    ∃ tu, e.tripUpdate = some tu ∧ tu.tripId = t := by
  rcases he : e.tripUpdate with _ | tu
  · simp [resolveEntity, he] at h
  · rcases hf : mapGet cache tu.routeId.toStr with _ | f
    · simp [resolveEntity, he, hf] at h
    · rcases hc : calculatePositionOnRoute d tu f clock with _ | pos2
      · simp [resolveEntity, he, hf, getLineStringFeature, hc] at h
      · simp only [resolveEntity, he, hf, getLineStringFeature, hc,
          Option.some.injEq, Prod.mk.injEq] at h
        exact ⟨tu, rfl, h.1⟩

theorem stepEntity_snd (d : Pt → Pt → ℚ) (cache : Cache)
    (sliceFn : Feature → Pt → Option (List Pt)) (clock : ℚ)
    (acc : VState × List String) (e : Entity) :
    (stepEntity d cache sliceFn clock acc e).2 = visStep d cache clock acc.2 e := by
  rcases hr : resolveEntity d cache clock e with _ | ⟨t, pos, lf⟩
  · simp [stepEntity, visStep, hr]
  · rcases hs : sliceFn lf pos with _ | ll
    · simp [stepEntity, visStep, hr, hs]
    · rcases hg : mapGet acc.1.tracked t with _ | L
      · simp [stepEntity, visStep, hr, hs, hg]
      · simp [stepEntity, visStep, hr, hs, hg]

theorem foldl_snd (d : Pt → Pt → ℚ) (cache : Cache)
    (sliceFn : Feature → Pt → Option (List Pt)) (clock : ℚ) :
    ∀ (ents : List Entity) (acc : VState × List String),
      (ents.foldl (stepEntity d cache sliceFn clock) acc).2
        = ents.foldl (visStep d cache clock) acc.2 := by
  intro ents
  induction ents with
  | nil => intro acc; rfl
  | cons e rest ih =>
    intro acc
    simp only [List.foldl_cons]
    rw [ih, stepEntity_snd]

theorem mem_visFold_cases (d : Pt → Pt → ℚ) (cache : Cache) (clock : ℚ) :
    ∀ (ents : List Entity) (v : List String) (x : String),
      x ∈ ents.foldl (visStep d cache clock) v →
      x ∈ v ∨ ∃ e ∈ ents, ∃ pos lf, resolveEntity d cache clock e = some (x, pos, lf) := by
  intro ents
  induction ents with
  | nil => intro v x hx; exact Or.inl hx
  | cons e rest ih =>
    intro v x hx
    simp only [List.foldl_cons] at hx
    rcases ih _ x hx with hv | ⟨e2, he2, pos, lf, hr⟩
    · rcases hr2 : resolveEntity d cache clock e with _ | ⟨t, pos, lf⟩
      · rw [visStep, hr2] at hv
        exact Or.inl hv
      · rw [visStep, hr2] at hv
        rcases List.mem_insert_iff.1 hv with h | h
        · exact Or.inr ⟨e, List.mem_cons_self _ _, pos, lf, h ▸ hr2⟩
        · exact Or.inl h
    · exact Or.inr ⟨e2, List.mem_cons_of_mem _ he2, pos, lf, hr⟩

theorem subset_visFold (d : Pt → Pt → ℚ) (cache : Cache) (clock : ℚ) :
    ∀ (ents : List Entity) (v : List String) (x : String),
      x ∈ v → x ∈ ents.foldl (visStep d cache clock) v := by
  intro ents
  induction ents with
  | nil => intro v x hx; exact hx
  | cons e rest ih =>
    intro v x hx
    simp only [List.foldl_cons]
    refine ih _ x ?_
    rcases hr : resolveEntity d cache clock e with _ | ⟨t, pos, lf⟩
    · rwa [visStep, hr]
    · rw [visStep, hr]
      exact List.mem_insert_of_mem hx

theorem mem_visFold_of_resolve (d : Pt → Pt → ℚ) (cache : Cache) (clock : ℚ) :
    ∀ (ents : List Entity) (v : List String) (e : Entity) (t : String) (pos : Pt)
      (lf : Feature), e ∈ ents → resolveEntity d cache clock e = some (t, pos, lf) →
      t ∈ ents.foldl (visStep d cache clock) v := by
  intro ents
  induction ents with
  | nil => intro v e t pos lf he _; cases he
  | cons e0 rest ih =>
    intro v e t pos lf he hr
    simp only [List.foldl_cons]
    rcases List.mem_cons.1 he with he0 | hrest
    · subst he0
      apply subset_visFold
      rw [visStep, hr]
      exact List.mem_insert_self _ _
    · exact ih _ e t pos lf hrest hr

theorem fold_get_notIn (d : Pt → Pt → ℚ) (cache : Cache)
    (sliceFn : Feature → Pt → Option (List Pt)) (clock : ℚ) :
    ∀ (ents : List Entity) (acc : VState × List String) (t : String),
      (∀ e ∈ ents, ∀ pos lf, resolveEntity d cache clock e ≠ some (t, pos, lf)) →
      mapGet ((ents.foldl (stepEntity d cache sliceFn clock) acc).1).tracked t
        = mapGet acc.1.tracked t := by
  intro ents
  induction ents with
  | nil => intro acc t _; rfl
  | cons e rest ih =>
    intro acc t hno
    simp only [List.foldl_cons]
    rw [ih _ t (fun e2 h2 => hno e2 (List.mem_cons_of_mem _ h2))]
    rcases hr : resolveEntity d cache clock e with _ | ⟨t2, pos, lf⟩
    · simp [stepEntity, hr]
    · have hne : t2 ≠ t := by
        intro hh
        exact hno e (List.mem_cons_self _ _) pos lf (hh ▸ hr)
      rcases hs : sliceFn lf pos with _ | ll
      · simp [stepEntity, hr, hs]
      · rcases hg : mapGet acc.1.tracked t2 with _ | L
        · simp only [stepEntity, hr, hs, hg]
          rw [mapGet_mapSet, if_neg hne]
        · simp only [stepEntity, hr, hs, hg]
          rw [mapGet_mapSet, if_neg hne]

theorem fold_surface_mono (d : Pt → Pt → ℚ) (cache : Cache)
    (sliceFn : Feature → Pt → Option (List Pt)) (clock : ℚ) :
    ∀ (ents : List Entity) (acc : VState × List String) (l : Nat),
      l ∈ acc.1.surface →
      l ∈ ((ents.foldl (stepEntity d cache sliceFn clock) acc).1).surface := by
  intro ents
  induction ents with
  | nil => intro acc l hl; exact hl
  | cons e rest ih =>
    intro acc l hl
    simp only [List.foldl_cons]
    refine ih _ l ?_
    rcases hr : resolveEntity d cache clock e with _ | ⟨t, pos, lf⟩
    · simpa [stepEntity, hr] using hl
    · rcases hs : sliceFn lf pos with _ | ll
      · simpa [stepEntity, hr, hs] using hl
      · rcases hg : mapGet acc.1.tracked t with _ | L
        · simp only [stepEntity, hr, hs, hg]
          exact List.mem_append_left _ hl
        · simpa [stepEntity, hr, hs, hg] using hl

theorem frame_eq (d : Pt → Pt → ℚ) (cache : Cache)
    (sliceFn : Feature → Pt → Option (List Pt)) (clock : ℚ)
    (ents : List Entity) (s : VState) :
    updateVehiclePositions d cache sliceFn clock ents s =
      gcLayers ((ents.foldl (stepEntity d cache sliceFn clock) (s, [])).2)
        ((ents.foldl (stepEntity d cache sliceFn clock) (s, [])).1) := rfl

theorem gcGet (vis : List String) (s : VState) (t : String) :
    mapGet (gcLayers vis s).tracked t = if t ∈ vis then mapGet s.tracked t else none := by
  have h := mapGet_filter_key s.tracked (fun k => decide (k ∈ vis)) t
  simp only [gcLayers]
  by_cases ht : t ∈ vis
  · rw [if_pos ht]
    rw [if_pos (by simpa using ht)] at h
    exact h
  · rw [if_neg ht]
    rw [if_neg (by simpa using ht)] at h
    exact h

theorem gc_keys_sub (vis : List String) (s : VState) (k : String)
    (h : k ∈ (gcLayers vis s).tracked.map Prod.fst) : k ∈ vis := by
  simp only [gcLayers, List.mem_map] at h
  obtain ⟨e, he, hk⟩ := h
  have := List.of_mem_filter he
  subst hk
  simpa using this

theorem notIn_entIds {d : Pt → Pt → ℚ} {cache : Cache} {clock : ℚ} {ents : List Entity}
    {t : String} (ht : t ∉ entIds ents) :
    ∀ e ∈ ents, ∀ pos lf, resolveEntity d cache clock e ≠ some (t, pos, lf) := by
  intro e he pos lf hr
  obtain ⟨tu, htu, hid⟩ := resolveEntity_tripId hr
  apply ht
  simp only [entIds, List.mem_filterMap]
  exact ⟨e, he, by rw [htu, Option.map_some', hid]⟩

theorem nodup_keys_filter_le_one {m : List (String × Layer)}
    (h : (m.map Prod.fst).Nodup) (u : String) :
    (m.filter (fun e => e.1 = u)).length ≤ 1 := by
  induction m with
  | nil => simp
  | cons e rest ih =>
    obtain ⟨k, v⟩ := e
    simp only [List.map_cons, List.nodup_cons] at h
    by_cases hk : k = u
    · rw [List.filter_cons_of_pos (by simpa using hk)]
      have hnone : rest.filter (fun e => decide (e.1 = u)) = [] := by
        rw [List.filter_eq_nil_iff]
        intro a ha
        subst hk
        simp only [decide_eq_true_eq]
        intro hau
        exact h.1 (List.mem_map.2 ⟨a, ha, hau⟩)
      simp [hnone]
    · rw [List.filter_cons_of_neg (by simpa using hk)]
      exact ih h.2

theorem nodup_append_singleton {α : Type} {l : List α} {a : α}
    (h : l.Nodup) (ha : a ∉ l) : (l ++ [a]).Nodup := by
  rw [List.nodup_append]
  refine ⟨h, List.nodup_singleton a, ?_⟩
  intro x hx hxa
  simp only [List.mem_singleton] at hxa
  subst hxa
  exact ha hx

theorem step_WF (d : Pt → Pt → ℚ) (cache : Cache)
    (sliceFn : Feature → Pt → Option (List Pt)) (clock : ℚ)
    (acc : VState × List String) (e : Entity) (h : WF acc.1) :
    WF (stepEntity d cache sliceFn clock acc e).1 := by
  rcases hr : resolveEntity d cache clock e with _ | ⟨t, pos, lf⟩
  · simpa only [stepEntity, hr] using h
  · rcases hs : sliceFn lf pos with _ | ll
    · simpa only [stepEntity, hr, hs] using h
    · rcases hg : mapGet acc.1.tracked t with _ | L
      · obtain ⟨h1, h2, h3, h4, h5, h6⟩ := h
        simp only [stepEntity, hr, hs, hg, WF]
        have hkeys : (mapSet acc.1.tracked t ⟨acc.1.nextId, ll⟩).map Prod.fst
            = acc.1.tracked.map Prod.fst ++ [t] :=
          mapSet_map_of_get_none _ _ hg
        have hlids : (mapSet acc.1.tracked t ⟨acc.1.nextId, ll⟩).map (fun x => x.2.lid)
            = acc.1.tracked.map (fun x => x.2.lid) ++ [acc.1.nextId] :=
          mapSet_map_of_get_none _ _ hg
        have hlidn : acc.1.nextId ∉ acc.1.tracked.map (fun x => x.2.lid) := by
          intro hmem
          obtain ⟨e2, he2, heq⟩ := List.mem_map.1 hmem
          have := h6 e2 he2
          omega
        have hsurfn : acc.1.nextId ∉ acc.1.surface := by
          intro hmem
          obtain ⟨e2, he2, heq⟩ := h4 _ hmem
          have := h6 e2 he2
          omega
        refine ⟨?_, ?_, ?_, ?_, ?_, ?_⟩
        · rw [hkeys]
          exact nodup_append_singleton h1 (mapGet_none_iff.1 hg)
        · rw [hlids]
          exact nodup_append_singleton h2 hlidn
        · exact nodup_append_singleton h3 hsurfn
        · intro l hl
          rcases List.mem_append.1 hl with hl | hl
          · obtain ⟨e2, he2, heq⟩ := h4 l hl
            exact ⟨e2, mapSet_none_entries _ hg e2 he2, heq⟩
          · have hln : l = acc.1.nextId := by simpa using hl
            subst hln
            exact ⟨(t, ⟨acc.1.nextId, ll⟩), self_mem_mapSet _ _ _, rfl⟩
        · intro e2 he2
          rcases mem_mapSet he2 with he2' | he2'
          · subst he2'
            exact List.mem_append_right _ (by simp)
          · exact List.mem_append_left _ (h5 e2 he2')
        · intro e2 he2
          rcases mem_mapSet he2 with he2' | he2'
          · subst he2'
            simp
          · have := h6 e2 he2'
            omega
      · obtain ⟨h1, h2, h3, h4, h5, h6⟩ := h
        simp only [stepEntity, hr, hs, hg, WF]
        refine ⟨?_, ?_, h3, ?_, ?_, ?_⟩
        · rw [mapSet_map_of_get_some ⟨L.lid, ll⟩ Prod.fst hg rfl]
          exact h1
        · rw [mapSet_map_of_get_some ⟨L.lid, ll⟩ (fun x => x.2.lid) hg rfl]
          exact h2
        · intro l hl
          obtain ⟨e2, he2, heq⟩ := h4 l hl
          rcases mapSet_entries _ hg e2 he2 with hin | heq2
          · exact ⟨e2, hin, heq⟩
          · subst heq2
            exact ⟨(t, ⟨L.lid, ll⟩), self_mem_mapSet _ _ _, heq⟩
        · intro e2 he2
          rcases mem_mapSet he2 with he2' | he2'
          · subst he2'
            exact h5 (t, L) (mapGet_mem hg)
          · exact h5 e2 he2'
        · intro e2 he2
          rcases mem_mapSet he2 with he2' | he2'
          · subst he2'
            exact h6 (t, L) (mapGet_mem hg)
          · exact h6 e2 he2'

theorem fold_WF (d : Pt → Pt → ℚ) (cache : Cache)
    (sliceFn : Feature → Pt → Option (List Pt)) (clock : ℚ) :
    ∀ (ents : List Entity) (acc : VState × List String), WF acc.1 →
      WF ((ents.foldl (stepEntity d cache sliceFn clock) acc).1) := by
  intro ents
  induction ents with
  | nil => intro acc h; exact h
  | cons e rest ih =>
    intro acc h
    simp only [List.foldl_cons]
    exact ih _ (step_WF d cache sliceFn clock acc e h)

theorem gc_WF (vis : List String) (s : VState) (h : WF s) : WF (gcLayers vis s) := by
  obtain ⟨h1, h2, h3, h4, h5, h6⟩ := h
  have hinj := List.inj_on_of_nodup_map h2
  simp only [WF, gcLayers]
  refine ⟨?_, ?_, ?_, ?_, ?_, ?_⟩
  · exact List.Nodup.sublist (List.Sublist.map _ (List.filter_sublist _)) h1
  · exact List.Nodup.sublist (List.Sublist.map _ (List.filter_sublist _)) h2
  · exact List.Nodup.sublist (List.filter_sublist _) h3
  · intro l hl
    have hl2 := List.mem_of_mem_filter hl
    have hQ := List.of_mem_filter hl
    obtain ⟨e2, he2, heq⟩ := h4 l hl2
    have hP : e2.1 ∈ vis := by
      by_contra hnot
      have hm : e2 ∈ s.tracked.filter (fun x => decide (x.1 ∉ vis)) :=
        List.mem_filter.2 ⟨he2, by simpa using hnot⟩
      have hmm : l ∈ (s.tracked.filter (fun x => decide (x.1 ∉ vis))).map
          (fun x => x.2.lid) := List.mem_map.2 ⟨e2, hm, heq⟩
      simp only [decide_eq_true_eq] at hQ
      exact hQ (by simpa using hmm)
    exact ⟨e2, List.mem_filter.2 ⟨he2, by simpa using hP⟩, heq⟩
  · intro e2 he2
    have he2' := List.mem_of_mem_filter he2
    have hP := List.of_mem_filter he2
    have hsur := h5 e2 he2'
    refine List.mem_filter.2 ⟨hsur, ?_⟩
    simp only [decide_eq_true_eq]
    intro hmem
    obtain ⟨e3, he3, heq3⟩ := List.mem_map.1 hmem
    have he3' := List.mem_of_mem_filter he3
    have hnot3 := List.of_mem_filter he3
    have he32 : e3 = e2 := hinj he3' he2' heq3
    subst he32
    simp only [decide_eq_true_eq] at hnot3 hP
    exact hnot3 hP
  · intro e2 he2
    exact h6 e2 (List.mem_of_mem_filter he2)

theorem frame_drops (d : Pt → Pt → ℚ) (cache : Cache)
    (sliceFn : Feature → Pt → Option (List Pt)) (clock : ℚ)
    (ents : List Entity) (s : VState) (t : String)
    (hno : ∀ e ∈ ents, ∀ pos lf, resolveEntity d cache clock e ≠ some (t, pos, lf)) :
    (t ∉ (updateVehiclePositions d cache sliceFn clock ents s).tracked.map Prod.fst) ∧
    (∀ L, mapGet s.tracked t = some L →
      L.lid ∉ (updateVehiclePositions d cache sliceFn clock ents s).surface) := by
  rw [frame_eq]
  set r := ents.foldl (stepEntity d cache sliceFn clock) (s, []) with hrdef
  have htvis : t ∉ r.2 := by
    rw [hrdef, foldl_snd]
    intro hmem
    rcases mem_visFold_cases d cache clock ents [] t hmem with h | ⟨e, he, pos, lf, hres⟩
    · cases h
    · exact hno e he pos lf hres
  constructor
  · intro hmem
    exact htvis (gc_keys_sub _ _ _ hmem)
  · intro L hL
    have hLf : mapGet r.1.tracked t = some L := by
      rw [hrdef, fold_get_notIn d cache sliceFn clock ents (s, []) t hno]
      exact hL
    have hmemL : (t, L) ∈ r.1.tracked := mapGet_mem hLf
    have hremoved : L.lid ∈ (r.1.tracked.filter (fun x => decide (x.1 ∉ r.2))).map
        (fun x => x.2.lid) :=
      List.mem_map.2 ⟨(t, L), List.mem_filter.2 ⟨hmemL, by simpa using htvis⟩, rfl⟩
    simp only [gcLayers]
    intro hmem
    have hq := List.of_mem_filter hmem
    simp only [decide_eq_true_eq] at hq
    exact hq (by simpa using hremoved)

/-- C6: for any well-formed reconciler state, running one frame whose
input entities do not name the trip id `t` removes `t` entirely: `t` is
not tracked afterwards, and the layer it was tracked under is no longer
on the surface.  Well-formedness — at most one tracked entry and at most
one surface object per trip id, with the surface carrying exactly the
tracked layers — is preserved by the frame and holds for the initial
empty state, so it holds along every sequence of frames. -/
theorem c6_reconciler_sweep (d : Pt → Pt → ℚ) (cache : Cache)
    (sliceFn : Feature → Pt → Option (List Pt)) (clock : ℚ)
    (ents : List Entity) (s : VState) (hWF : WF s) (t : String)
    (ht : t ∉ entIds ents) :
    (t ∉ (updateVehiclePositions d cache sliceFn clock ents s).tracked.map Prod.fst) ∧
    (∀ L, mapGet s.tracked t = some L →
      L.lid ∉ (updateVehiclePositions d cache sliceFn clock ents s).surface) ∧
    WF (updateVehiclePositions d cache sliceFn clock ents s) ∧
    (∀ u, ((updateVehiclePositions d cache sliceFn clock ents s).tracked.filter
      (fun x => x.1 = u)).length ≤ 1) ∧
    WF ⟨0, [], []⟩ := by
  have hdrop := frame_drops d cache sliceFn clock ents s t (notIn_entIds ht)
  have hWF2 : WF (updateVehiclePositions d cache sliceFn clock ents s) := by
    rw [frame_eq]
    exact gc_WF _ _ (fold_WF d cache sliceFn clock ents (s, []) hWF)
  refine ⟨hdrop.1, hdrop.2, hWF2, ?_, by decide⟩
  intro u
  exact nodup_keys_filter_le_one hWF2.1 u

/-- C6 witness: a frame with empty input sweeps the previously tracked
trip "a" — its entry and its surface object are gone — while every
well-formedness conjunct is maintained. -/
theorem c6_witness :
    ("a" ∉ (updateVehiclePositions taxi [] (fun _ _ => none) 0 []
      ⟨1, [("a", ⟨0, [(0, 0)]⟩)], [0]⟩).tracked.map Prod.fst) ∧
    (∀ L, mapGet (⟨1, [("a", ⟨0, [(0, 0)]⟩)], [0]⟩ : VState).tracked "a" = some L →
      L.lid ∉ (updateVehiclePositions taxi [] (fun _ _ => none) 0 []
        ⟨1, [("a", ⟨0, [(0, 0)]⟩)], [0]⟩).surface) ∧
    WF (updateVehiclePositions taxi [] (fun _ _ => none) 0 []
      ⟨1, [("a", ⟨0, [(0, 0)]⟩)], [0]⟩) ∧
    (∀ u, ((updateVehiclePositions taxi [] (fun _ _ => none) 0 []
      ⟨1, [("a", ⟨0, [(0, 0)]⟩)], [0]⟩).tracked.filter (fun x => x.1 = u)).length ≤ 1) ∧
    WF ⟨0, [], []⟩ :=
  c6_reconciler_sweep taxi [] (fun _ _ => none) 0 [] ⟨1, [("a", ⟨0, [(0, 0)]⟩)], [0]⟩
    (by decide) "a" (by decide)

theorem fold_get_written (d : Pt → Pt → ℚ) (cache : Cache)
    (sliceFn : Feature → Pt → Option (List Pt)) (clock : ℚ) :
    ∀ (ents : List Entity) (acc : VState × List String),
      (entIds ents).Nodup →
      ∀ e ∈ ents, ∀ t pos lf ll,
        resolveEntity d cache clock e = some (t, pos, lf) →
        sliceFn lf pos = some ll →
        ∃ lid, mapGet ((ents.foldl (stepEntity d cache sliceFn clock) acc).1).tracked t
          = some ⟨lid, ll⟩ := by
  intro ents
  induction ents with
  | nil => intro acc _ e he; cases he
  | cons e0 rest ih =>
    intro acc hnd e he t pos lf ll hr hs
    simp only [List.foldl_cons]
    rcases List.mem_cons.1 he with he0 | herest
    · subst he0
      obtain ⟨tu, htu, hid⟩ := resolveEntity_tripId hr
      have hids : entIds (e :: rest) = t :: entIds rest := by
        simp [entIds, List.filterMap_cons, htu, hid]
      rw [hids] at hnd
      have htnotin : t ∉ entIds rest := (List.nodup_cons.1 hnd).1
      rw [fold_get_notIn d cache sliceFn clock rest _ t (notIn_entIds htnotin)]
      rcases hg : mapGet acc.1.tracked t with _ | L
      · refine ⟨acc.1.nextId, ?_⟩
        simp only [stepEntity, hr, hs, hg]
        rw [mapGet_mapSet, if_pos rfl]
      · refine ⟨L.lid, ?_⟩
        simp only [stepEntity, hr, hs, hg]
        rw [mapGet_mapSet, if_pos rfl]
    · have hnd2 : (entIds rest).Nodup := by
        rcases htu0 : e0.tripUpdate with _ | tu0
        · have heids : entIds (e0 :: rest) = entIds rest := by
            simp [entIds, List.filterMap_cons, htu0]
          rwa [heids] at hnd
        · have heids : entIds (e0 :: rest) = tu0.tripId :: entIds rest := by
            simp [entIds, List.filterMap_cons, htu0]
          rw [heids] at hnd
          exact (List.nodup_cons.1 hnd).2
      exact ih _ hnd2 e herest t pos lf ll hr hs

theorem stepEntity_fixed (d : Pt → Pt → ℚ) (cache : Cache)
    (sliceFn : Feature → Pt → Option (List Pt)) (clock : ℚ)
    (acc : VState × List String) (e : Entity) (t : String) (pos : Pt) (lf : Feature)
    (ll : List Pt) (lid : Nat)
    (hr : resolveEntity d cache clock e = some (t, pos, lf))
    (hs : sliceFn lf pos = some ll)
    (hg : mapGet acc.1.tracked t = some ⟨lid, ll⟩) :
    stepEntity d cache sliceFn clock acc e = (acc.1, acc.2.insert t) := by
  simp only [stepEntity, hr, hs, hg]
  rw [mapSet_self hg]

theorem fold_fixed (d : Pt → Pt → ℚ) (cache : Cache)
    (sliceFn : Feature → Pt → Option (List Pt)) (clock : ℚ) :
    ∀ (ents : List Entity) (acc : VState × List String),
      (∀ e ∈ ents, ∀ t pos lf ll,
        resolveEntity d cache clock e = some (t, pos, lf) → sliceFn lf pos = some ll →
        ∃ lid, mapGet acc.1.tracked t = some ⟨lid, ll⟩) →
      ((ents.foldl (stepEntity d cache sliceFn clock) acc).1) = acc.1 := by
  intro ents
  induction ents with
  | nil => intro acc _; rfl
  | cons e0 rest ih =>
    intro acc hfix
    simp only [List.foldl_cons]
    rcases hr : resolveEntity d cache clock e0 with _ | ⟨t, pos, lf⟩
    · have hstep : stepEntity d cache sliceFn clock acc e0 = acc := by
        simp [stepEntity, hr]
      rw [hstep]
      exact ih acc (fun e he => hfix e (List.mem_cons_of_mem _ he))
    · rcases hs : sliceFn lf pos with _ | ll
      · have hstep : stepEntity d cache sliceFn clock acc e0 = (acc.1, acc.2.insert t) := by
          simp [stepEntity, hr, hs]
        rw [hstep]
        exact ih _ (fun e he => hfix e (List.mem_cons_of_mem _ he))
      · obtain ⟨lid, hg⟩ := hfix e0 (List.mem_cons_self _ _) t pos lf ll hr hs
        rw [stepEntity_fixed d cache sliceFn clock acc e0 t pos lf ll lid hr hs hg]
        exact ih _ (fun e he => hfix e (List.mem_cons_of_mem _ he))

theorem gc_fixed (vis : List String) (s : VState)
    (h : ∀ e ∈ s.tracked, e.1 ∈ vis) : gcLayers vis s = s := by
  have htr : s.tracked.filter (fun x => decide (x.1 ∈ vis)) = s.tracked :=
    List.filter_eq_self.2 (fun e he => by simpa using h e he)
  have hrem : s.tracked.filter (fun x => decide (x.1 ∉ vis)) = [] :=
    List.filter_eq_nil_iff.2 (fun e he => by simpa using h e he)
  simp only [gcLayers, htr, hrem]
  cases s with
  | mk n tr su => simp

/-- C7: reconciliation is idempotent — for every tracked-object state and
every frame input keyed by unique trip ids (the spec's "mapping from trip
ids to positions"), running the frame twice with the identical input
produces exactly the same reconciler state as running it once: same
tracked set, same point sequences, same surface, same freshness
counter. -/
theorem c7_reconcile_idem (d : Pt → Pt → ℚ) (cache : Cache)
    (sliceFn : Feature → Pt → Option (List Pt)) (clock : ℚ)
    (ents : List Entity) (hids : (entIds ents).Nodup) (s : VState) :
    updateVehiclePositions d cache sliceFn clock ents
      (updateVehiclePositions d cache sliceFn clock ents s)
      = updateVehiclePositions d cache sliceFn clock ents s := by
  set s1 := updateVehiclePositions d cache sliceFn clock ents s with hs1
  have hfix : ∀ e ∈ ents, ∀ t pos lf ll,
      resolveEntity d cache clock e = some (t, pos, lf) → sliceFn lf pos = some ll →
      ∃ lid, mapGet s1.tracked t = some ⟨lid, ll⟩ := by
    intro e he t pos lf ll hr hsl
    obtain ⟨lid, hg⟩ := fold_get_written d cache sliceFn clock ents (s, []) hids e he
      t pos lf ll hr hsl
    refine ⟨lid, ?_⟩
    rw [hs1, frame_eq, gcGet]
    have htv : t ∈ (ents.foldl (stepEntity d cache sliceFn clock) (s, [])).2 := by
      rw [foldl_snd]
      exact mem_visFold_of_resolve d cache clock ents [] e t pos lf he hr
    rw [if_pos htv]
    exact hg
  rw [frame_eq d cache sliceFn clock ents s1]
  have hfold : (ents.foldl (stepEntity d cache sliceFn clock) (s1, [])).1 = s1 :=
    fold_fixed d cache sliceFn clock ents (s1, []) hfix
  have hkeys : ∀ e2 ∈ s1.tracked, e2.1 ∈
      (ents.foldl (stepEntity d cache sliceFn clock) (s1, [])).2 := by
    intro e2 he2
    rw [foldl_snd]
    have hin : e2.1 ∈ (ents.foldl (stepEntity d cache sliceFn clock) (s, [])).2 := by
      rw [hs1, frame_eq] at he2
      simp only [gcLayers] at he2
      have := List.of_mem_filter he2
      simpa using this
    rw [foldl_snd] at hin
    exact hin
  rw [hfold]
  exact gc_fixed _ s1 hkeys

/-- C7 witness: a concrete frame — one trip on one cached route with a
successful slice — applied twice from the empty state equals its single
application. -/
theorem c7_witness :
    updateVehiclePositions taxi
      [("7", ⟨some ⟨some (.num 7), none, none, none, none, none⟩, .line [(0, 0), (0, 1)]⟩)]
      (fun _ p => some [p]) 1050
      [⟨some ⟨"t1", .num 7, some [⟨some 1000, none⟩, ⟨some 1100, none⟩]⟩⟩]
      (updateVehiclePositions taxi
        [("7", ⟨some ⟨some (.num 7), none, none, none, none, none⟩,
          .line [(0, 0), (0, 1)]⟩)]
        (fun _ p => some [p]) 1050
        [⟨some ⟨"t1", .num 7, some [⟨some 1000, none⟩, ⟨some 1100, none⟩]⟩⟩] ⟨0, [], []⟩)
      = updateVehiclePositions taxi
        [("7", ⟨some ⟨some (.num 7), none, none, none, none, none⟩,
          .line [(0, 0), (0, 1)]⟩)]
        (fun _ p => some [p]) 1050
        [⟨some ⟨"t1", .num 7, some [⟨some 1000, none⟩, ⟨some 1100, none⟩]⟩⟩] ⟨0, [], []⟩ :=
  c7_reconcile_idem taxi _ _ 1050 _ (by decide) ⟨0, [], []⟩

theorem fold_get_sliceFail (d : Pt → Pt → ℚ) (cache : Cache)
    (sliceFn : Feature → Pt → Option (List Pt)) (clock : ℚ) :
    ∀ (ents : List Entity) (acc : VState × List String) (t : String),
      (∀ e ∈ ents, ∀ pos lf, resolveEntity d cache clock e = some (t, pos, lf) →
        sliceFn lf pos = none) →
      mapGet ((ents.foldl (stepEntity d cache sliceFn clock) acc).1).tracked t
        = mapGet acc.1.tracked t := by
  intro ents
  induction ents with
  | nil => intro acc t _; rfl
  | cons e0 rest ih =>
    intro acc t hall
    simp only [List.foldl_cons]
    rw [ih _ t (fun e he => hall e (List.mem_cons_of_mem _ he))]
    rcases hr : resolveEntity d cache clock e0 with _ | ⟨t2, pos, lf⟩
    · simp [stepEntity, hr]
    · by_cases ht2 : t2 = t
      · subst ht2
        have hsl := hall e0 (List.mem_cons_self _ _) pos lf hr
        simp [stepEntity, hr, hsl]
      · rcases hs : sliceFn lf pos with _ | ll
        · simp [stepEntity, hr, hs]
        · rcases hg : mapGet acc.1.tracked t2 with _ | L
          · simp only [stepEntity, hr, hs, hg]
            rw [mapGet_mapSet, if_neg ht2]
          · simp only [stepEntity, hr, hs, hg]
            rw [mapGet_mapSet, if_neg ht2]

/-- C8, amended: failure containment per trip.  (i) A failed
point-at-fraction lookup makes the resolver return not-active.  (ii) A
trip none of whose entities resolves a position is fully dropped after
the frame: not tracked, old layer swept.  (iii) A slice failure is
contained: the reconciler state is left untouched for that entity, and
an entity that fails to resolve leaves the frame equal to the frame of
the remaining entities — no failure aborts the remaining trips.
(iv) Contrary to the claim's "exclusion", a slice failure does NOT
exclude a previously tracked trip from the frame: it stays tracked with
its old point sequence and its rendered object stays on the surface. -/
theorem c8_failure_isolation :
    (∀ (d : Pt → Pt → ℚ) (tu : TripUpdate) (lf : Feature) (clock : ℚ)
      (sts : List StopTimeUpdate) (s e : JQ),
      tu.stopTimeUpdate = some sts → resolveGate clock sts = some (s, e) →
      getPointAtFraction d lf.geom (jdiv (jsub (some clock) s) (jsub e s)) = none →
      calculatePositionOnRoute d tu lf clock = none) ∧
    (∀ (d : Pt → Pt → ℚ) (cache : Cache) (sliceFn : Feature → Pt → Option (List Pt))
      (clock : ℚ) (ents : List Entity) (st : VState) (t : String),
      (∀ e ∈ ents, ∀ pos lf, resolveEntity d cache clock e ≠ some (t, pos, lf)) →
      (t ∉ (updateVehiclePositions d cache sliceFn clock ents st).tracked.map Prod.fst) ∧
      (∀ L, mapGet st.tracked t = some L →
        L.lid ∉ (updateVehiclePositions d cache sliceFn clock ents st).surface)) ∧
    (∀ (d : Pt → Pt → ℚ) (cache : Cache) (sliceFn : Feature → Pt → Option (List Pt))
      (clock : ℚ) (acc : VState × List String) (e : Entity) (t : String) (pos : Pt)
      (lf : Feature),
      resolveEntity d cache clock e = some (t, pos, lf) → sliceFn lf pos = none →
      stepEntity d cache sliceFn clock acc e = (acc.1, acc.2.insert t)) ∧
    (∀ (d : Pt → Pt → ℚ) (cache : Cache) (sliceFn : Feature → Pt → Option (List Pt))
      (clock : ℚ) (e : Entity) (ents : List Entity) (st : VState),
      resolveEntity d cache clock e = none →
      updateVehiclePositions d cache sliceFn clock (e :: ents) st
        = updateVehiclePositions d cache sliceFn clock ents st) ∧
    (∀ (d : Pt → Pt → ℚ) (cache : Cache) (sliceFn : Feature → Pt → Option (List Pt))
      (clock : ℚ) (ents : List Entity) (st : VState) (t : String),
      WF st →
      (∀ e ∈ ents, ∀ pos lf, resolveEntity d cache clock e = some (t, pos, lf) →
        sliceFn lf pos = none) →
      (∃ e ∈ ents, ∃ pos lf, resolveEntity d cache clock e = some (t, pos, lf)) →
      mapGet (updateVehiclePositions d cache sliceFn clock ents st).tracked t
        = mapGet st.tracked t ∧
      (∀ L, mapGet st.tracked t = some L →
        L.lid ∈ (updateVehiclePositions d cache sliceFn clock ents st).surface)) := by
  refine ⟨?_, ?_, ?_, ?_, ?_⟩
  · intro d tu lf clock sts s e hsts hgate hnone
    rw [calcPos_eq d tu lf clock hsts hgate]
    exact hnone
  · intro d cache sliceFn clock ents st t hno
    exact frame_drops d cache sliceFn clock ents st t hno
  · intro d cache sliceFn clock acc e t pos lf hr hsl
    simp [stepEntity, hr, hsl]
  · intro d cache sliceFn clock e ents st hr
    rw [frame_eq, frame_eq, List.foldl_cons]
    have hstep : stepEntity d cache sliceFn clock (st, []) e = (st, []) := by
      simp [stepEntity, hr]
    rw [hstep]
  · intro d cache sliceFn clock ents st t hWF hall hone
    rw [frame_eq]
    set r := ents.foldl (stepEntity d cache sliceFn clock) (st, []) with hrdef
    obtain ⟨e, he, pos, lf, hres⟩ := hone
    have htv : t ∈ r.2 := by
      rw [hrdef, foldl_snd]
      exact mem_visFold_of_resolve d cache clock ents [] e t pos lf he hres
    have hget : mapGet r.1.tracked t = mapGet st.tracked t := by
      rw [hrdef]
      exact fold_get_sliceFail d cache sliceFn clock ents (st, []) t hall
    constructor
    · rw [gcGet, if_pos htv, hget]
    · intro L hL
      have hsurf : L.lid ∈ r.1.surface := by
        rw [hrdef]
        exact fold_surface_mono d cache sliceFn clock ents (st, []) L.lid
          (hWF.2.2.2.2.1 (t, L) (mapGet_mem hL))
      have hWFr : WF r.1 := by
        rw [hrdef]
        exact fold_WF d cache sliceFn clock ents (st, []) hWF
      have hinj := List.inj_on_of_nodup_map hWFr.2.1
      have hmemtr : (t, L) ∈ r.1.tracked := mapGet_mem (by rw [hget]; exact hL)
      simp only [gcLayers]
      refine List.mem_filter.2 ⟨hsurf, ?_⟩
      simp only [decide_eq_true_eq]
      intro hmem
      obtain ⟨e3, he3, heq3⟩ := List.mem_map.1 hmem
      have he3m := List.mem_of_mem_filter he3
      have hnot3 := List.of_mem_filter he3
      have he32 : e3 = (t, L) := hinj he3m hmemtr heq3
      subst he32
      simp only [decide_eq_true_eq] at hnot3
      exact hnot3 htv

/-- C8 counterexample: a tracked trip whose slice fails this frame is
*not* excluded: the frame leaves the whole reconciler state unchanged —
the trip keeps its old point sequence and its rendered object stays on
the surface — although the trip resolved to a valid position and only
the slicing step failed. -/
theorem c8_cex :
    updateVehiclePositions taxi
      [("7", ⟨some ⟨some (.num 7), none, none, none, none, none⟩, .line [(0, 0), (0, 1)]⟩)]
      (fun _ _ => none) 1050
      [⟨some ⟨"t1", .num 7, some [⟨some 1000, none⟩, ⟨some 1100, none⟩]⟩⟩]
      ⟨1, [("t1", ⟨0, [(9, 9)]⟩)], [0]⟩
      = ⟨1, [("t1", ⟨0, [(9, 9)]⟩)], [0]⟩ := by
  with_unfolding_all rfl

/-- C8 witness: the containment conjunct applied concretely — an entity
with no trip update contributes nothing and the frame continues with the
remaining entities. -/
theorem c8_witness :
    updateVehiclePositions taxi [] (fun _ _ => none) 0
      [⟨none⟩, ⟨some ⟨"t1", .num 7, some [⟨some 1000, none⟩, ⟨some 1100, none⟩]⟩⟩]
      ⟨0, [], []⟩
      = updateVehiclePositions taxi [] (fun _ _ => none) 0
        [⟨some ⟨"t1", .num 7, some [⟨some 1000, none⟩, ⟨some 1100, none⟩]⟩⟩] ⟨0, [], []⟩ :=
  c8_failure_isolation.2.2.2.1 taxi [] (fun _ _ => none) 0 ⟨none⟩
    [⟨some ⟨"t1", .num 7, some [⟨some 1000, none⟩, ⟨some 1100, none⟩]⟩⟩] ⟨0, [], []⟩ rfl

end CapViz
